import Mathlib

/-!
Shallow embedding of the matching engine of `src/app.py` (classes `Order`,
`Trade`, `OrderBook`, the `/api/book` aggregation and the module-level
reload), together with proofs about the specification's claims.

Modelling conventions:
* SQLAlchemy rows become records; the `Order`/`Trade` tables become lists.
* `datetime` timestamps become a `Nat` clock value carried by the state; the
  clock may advance by any amount (including zero) between submissions, so
  equal timestamps on different orders are representable, as they are with
  `datetime.utcnow()`.
* A `heapq` heap is modelled by its multiset of tuples as a list; the heap
  root (`h[0]`) is the least tuple and `heappop` removes it.  The matching
  code and the level aggregation only depend on the heap through its root and
  its multiset of entries, so the internal array layout is irrelevant.
* The mutable order object stored in position 3 of each heap tuple is
  modelled by the order id, dereferenced through the order table on each
  read, which reproduces the sharing of the Python object references.
* The `Trade.timestamp` column (used only by the display/CSV routes) is not
  modelled.
-/

namespace BettingApp

/-- One row of the `Order` table of `src/app.py`. -/
structure Order where
  id : Nat
  user_email : String
  side : String
  price : Int
  quantity : Int
  remaining : Int
  timestamp : Nat
deriving DecidableEq

/-- One row of the `Trade` table of `src/app.py`. -/
structure Trade where
  buyer_email : String
  seller_email : String
  price : Int
  quantity : Int
deriving DecidableEq

/-- One heap tuple `(key, timestamp, id, order)` as pushed by
`reload_from_db` and `process_order`; the embedded order reference is
modelled by the id `oid`. -/
structure Entry where
  pkey : Int
  ts : Nat
  oid : Nat
deriving DecidableEq

/-- Row returned when dereferencing an id absent from the order table.  In
reachable states every heap entry's id is present, so this default is never
read; its `remaining = 0` makes such a ghost entry a tombstone. -/
def defaultOrder : Order := ⟨0, "", "", 0, 0, 0, 0⟩

/-- Primary-key lookup in the order table. -/
def findOrder (os : List Order) (i : Nat) : Option Order :=
  os.find? (fun o => o.id == i)

/-- Dereference an order id (a Python object reference read). -/
def getOrder (os : List Order) (i : Nat) : Order :=
  (findOrder os i).getD defaultOrder

/-- Current `remaining` of the order with id `i`. -/
def rem (os : List Order) (i : Nat) : Int := (getOrder os i).remaining

/-- Strict lexicographic order on the first three components of a heap
tuple: this is how Python orders the pushed tuples whenever the comparison
is decided before reaching the embedded order objects. -/
def entryKeyLt (a b : Entry) : Prop :=
  a.pkey < b.pkey ∨ (a.pkey = b.pkey ∧ (a.ts < b.ts ∨ (a.ts = b.ts ∧ a.oid < b.oid)))

instance (a b : Entry) : Decidable (entryKeyLt a b) := by
  unfold entryKeyLt; infer_instance

/-- Python's full tuple comparison, element by element.  If the first three
components all tie, Python would compare the embedded `Order` model objects,
which do not support ordering: that outcome is `none` (a `TypeError`). -/
def heapTupleCmp (a b : Entry) : Option Ordering :=
  if a.pkey < b.pkey then some Ordering.lt else if b.pkey < a.pkey then some Ordering.gt
  else if a.ts < b.ts then some Ordering.lt else if b.ts < a.ts then some Ordering.gt
  else if a.oid < b.oid then some Ordering.lt else if b.oid < a.oid then some Ordering.gt
  else none

/-- The root `h[0]` of the Python min-heap: the least tuple. -/
def heapMin : List Entry → Option Entry
  | [] => none
  | e :: es =>
    match heapMin es with
    | none => some e
    | some m => some (if entryKeyLt m e then m else e)

/-- `heapq.heappop`: remove the least tuple. -/
def popMin (h : List Entry) : List Entry :=
  match heapMin h with
  | none => h
  | some m => h.erase m

/-- Update every order whose id is `i` (in reachable states ids are unique,
so this is the single-object mutation of the Python code). -/
def mapOrder (os : List Order) (i : Nat) (f : Order → Order) : List Order :=
  os.map (fun o => if o.id = i then f o else o)

/-- `order.remaining -= q` on the order with id `i`. -/
def decRemaining (os : List Order) (i : Nat) (q : Int) : List Order :=
  mapOrder os i (fun o => { o with remaining := o.remaining - q })

/-- `OrderBook.record_trade`: append a `Trade` row and decrement the
remaining quantity of both counterparties. -/
def record_trade (os : List Order) (tr : List Trade) (buyerId sellerId : Nat)
    (p q : Int) : List Order × List Trade :=
  (decRemaining (decRemaining os buyerId q) sellerId q,
   tr ++ [⟨(getOrder os buyerId).user_email, (getOrder os sellerId).user_email, p, q⟩])

/-- The matching `while` loop of `OrderBook.process_order`.  `takerBuys`
selects the branch: `true` is the `side == 'buy'` loop over the asks,
`false` the sell loop over the bids.  `lim` is `price` for buys and
`-price` for sells, so the crossing test `asks[0][0] <= price` resp.
`-bids[0][0] >= price` is `m.pkey ≤ lim` in both branches.  Returns the
updated order table, trade table, heap, and `remaining_qty`.  The fuel
`h.length + 1` supplied by `process_order` always suffices: every iteration
except the last pops an entry (see `matchLoop_fuel`). -/
def matchLoop (takerBuys : Bool) (taker : Nat) (lim : Int) :
    Nat → List Order → List Trade → List Entry → Int →
      List Order × List Trade × List Entry × Int
  | 0, os, tr, h, rq => (os, tr, h, rq)
  | fuel + 1, os, tr, h, rq =>
    match heapMin h with
    | none => (os, tr, h, rq)
    | some m =>
      if m.pkey ≤ lim ∧ 0 < rq then
        if (getOrder os m.oid).remaining ≤ 0 then
          matchLoop takerBuys taker lim fuel os tr (popMin h) rq
        else
          let tq := min rq (getOrder os m.oid).remaining
          let pr := if takerBuys then m.pkey else -m.pkey
          let step := if takerBuys then record_trade os tr taker m.oid pr tq
            else record_trade os tr m.oid taker pr tq
          let h' := if (getOrder step.1 m.oid).remaining = 0 then popMin h else h
          matchLoop takerBuys taker lim fuel step.1 step.2 h' (rq - tq)
      else (os, tr, h, rq)

/-- The in-memory market state plus the persisted tables it reads/writes.
`orders`/`trades` model the database; `bids`/`asks` the two heaps of the
`OrderBook` instance; `nextId` the autoincrement primary key; `now` the
clock. -/
structure OrderBook where
  orders : List Order
  trades : List Trade
  bids : List Entry
  asks : List Entry
  nextId : Nat
  now : Nat
deriving DecidableEq

/-- `OrderBook.process_order`: persist the new order, match it, rest any
positive residue, and return `True`. -/
def process_order (s : OrderBook) (email side : String) (price qty : Int) :
    OrderBook × Bool :=
  let newId := s.nextId
  let os0 := s.orders ++ [⟨newId, email, side, price, qty, qty, s.now⟩]
  if side = "buy" then
    let r := matchLoop true newId price (s.asks.length + 1) os0 s.trades s.asks qty
    let bids' := if 0 < r.2.2.2 then Entry.mk (-price) s.now newId :: s.bids else s.bids
    ({ orders := r.1, trades := r.2.1, bids := bids', asks := r.2.2.1,
       nextId := newId + 1, now := s.now }, true)
  else
    let r := matchLoop false newId (-price) (s.bids.length + 1) os0 s.trades s.bids qty
    let asks' := if 0 < r.2.2.2 then Entry.mk price s.now newId :: s.asks else s.asks
    ({ orders := r.1, trades := r.2.1, bids := r.2.2.1, asks := asks',
       nextId := newId + 1, now := s.now }, true)

/-- `OrderBook.reload_from_db`: clear both heaps and repopulate them from
the orders with `remaining > 0`. -/
def reload_from_db (s : OrderBook) : OrderBook :=
  { s with
    bids := (s.orders.filter
        (fun o => decide (0 < o.remaining) && (o.side == "buy"))).map
      (fun o => ⟨-o.price, o.timestamp, o.id⟩),
    asks := (s.orders.filter
        (fun o => decide (0 < o.remaining) && !(o.side == "buy"))).map
      (fun o => ⟨o.price, o.timestamp, o.id⟩) }

/-- The distinct prices appearing in a heap (`get_levels`' dict keys). -/
def levelPrices (os : List Order) (h : List Entry) : List Int :=
  (h.map (fun e => (getOrder os e.oid).price)).dedup

/-- The aggregated remaining quantity at one price (`get_levels`' dict value). -/
def levelQty (os : List Order) (h : List Entry) (p : Int) : Int :=
  ((h.filter (fun e => (getOrder os e.oid).price == p)).map
    (fun e => (getOrder os e.oid).remaining)).sum

/-- `get_levels` of the `/api/book` route: aggregate a heap by price and
sort, descending for bids (`reverse=is_buy`), ascending for asks. -/
def get_levels (os : List Order) (h : List Entry) (isBuy : Bool) : List (Int × Int) :=
  let ps := List.insertionSort (· ≤ ·) (levelPrices os h)
  (if isBuy then ps.reverse else ps).map (fun p => (p, levelQty os h p))

/-- The `/api/book` response: bid levels, ask levels, last trade price. -/
def get_book (s : OrderBook) : List (Int × Int) × List (Int × Int) × Option Int :=
  (get_levels s.orders s.bids true, get_levels s.orders s.asks false,
   (s.trades.getLast?).map (fun t => t.price))

/-- The state of a freshly created market with an empty database. -/
def init0 : OrderBook := ⟨[], [], [], [], 0, 0⟩

/-- Clock advance between requests (any amount, including zero). -/
def tick (s : OrderBook) (k : Nat) : OrderBook := { s with now := s.now + k }

/-- States the application can produce: start empty, and interleave order
submissions (with arbitrary, possibly invalid, field values — the code
validates nothing) with reloads of the in-memory book from the database. -/
inductive Reachable : OrderBook → Prop where
  | init : Reachable init0
  | step (s : OrderBook) (k : Nat) (em sd : String) (p q : Int) :
      Reachable s → Reachable (process_order (tick s k) em sd p q).1
  | reload (s : OrderBook) : Reachable s → Reachable (reload_from_db s)

/-- Quantity filled so far on an order. -/
def filled (o : Order) : Int := o.quantity - o.remaining

/-- Total quantity filled over the orders of one side. -/
def filledSum (os : List Order) (buySide : Bool) : Int :=
  ((os.filter (fun o => (o.side == "buy") == buySide)).map filled).sum

/-- Total quantity over a list of trades. -/
def tradeVolume (tr : List Trade) : Int := (tr.map (fun t => t.quantity)).sum

/-- The active (remaining > 0) orders of one side at one price. -/
def activeAt (os : List Order) (buySide : Bool) (p : Int) : List Order :=
  os.filter (fun o =>
    ((o.side == "buy") == buySide) && decide (0 < o.remaining) && (o.price == p))

/-- Overwrite the `side` column of the order with id `i`. -/
def setSide (os : List Order) (i : Nat) (sd : String) : List Order :=
  mapOrder os i (fun o => { o with side := sd })

/-- The immutable columns of an order row: everything except `remaining`. -/
def sig (o : Order) : Nat × String × String × Int × Int × Nat :=
  (o.id, o.user_email, o.side, o.price, o.quantity, o.timestamp)

/-- Evolution of the order table during matching: rows are neither created
nor deleted, immutable columns never change, and `remaining` never grows. -/
def ordEvol (os os' : List Order) : Prop :=
  (∀ j, (findOrder os' j).isSome = (findOrder os j).isSome) ∧
  ∀ j o o', findOrder os j = some o → findOrder os' j = some o' →
    sig o' = sig o ∧ o'.remaining ≤ o.remaining

/-- The maker-side link between a heap entry and its order row: the row
exists, is still active, and carries the key the entry was pushed with.
`takerBuys = true` describes an ask entry, `false` a bid entry. -/
def entryLinked (takerBuys : Bool) (os : List Order) (e : Entry) : Prop :=
  ∃ o, findOrder os e.oid = some o ∧ 0 < o.remaining ∧
    (if takerBuys then e.pkey = o.price ∧ o.side ≠ "buy"
     else e.pkey = -o.price ∧ o.side = "buy")

/-- Quantity bounds on one order row: `remaining` never exceeds the
original quantity, stays non-negative for genuine (positive-quantity)
orders, and is never touched at all on degenerate non-positive orders. -/
def Bnd (o : Order) : Prop :=
  o.remaining ≤ o.quantity ∧ (0 < o.quantity → 0 ≤ o.remaining) ∧
    (o.quantity ≤ 0 → o.remaining = o.quantity)

/-- Everything the matching loop guarantees, given the loop preconditions
(see `matchLoop_main`): the heap only shrinks, the order table only loses
`remaining`, the taker row tracks `remaining_qty`, surviving entries stay
linked and active, untouched rows are unchanged, evicted entries were
exhausted, strict price-time priority is respected, quantity bounds are
kept, trades are appended with maker-priced in-limit records, and both
sides' filled totals grow by the matched amount. -/
def MLConc (tb : Bool) (taker : Nat) (lim : Int) (os : List Order)
    (tr : List Trade) (h : List Entry) (rq : Int) (tko : Order)
    (r : List Order × List Trade × List Entry × Int) : Prop :=
  List.Sublist r.2.2.1 h ∧
  ordEvol os r.1 ∧
  findOrder r.1 taker = some { tko with remaining := r.2.2.2 } ∧
  r.2.2.2 ≤ rq ∧ (0 ≤ rq → 0 ≤ r.2.2.2) ∧
  (∀ e ∈ r.2.2.1, entryLinked tb r.1 e) ∧
  (∀ j, j ≠ taker → j ∉ h.map (fun e => e.oid) → findOrder r.1 j = findOrder os j) ∧
  (∀ j, j ∈ h.map (fun e => e.oid) → j ∉ r.2.2.1.map (fun e => e.oid) → rem r.1 j = 0) ∧
  (∀ a ∈ h, ∀ b ∈ h, entryKeyLt a b → rem r.1 b.oid < rem os b.oid → rem r.1 a.oid = 0) ∧
  ((∀ o ∈ os, Bnd o) → ∀ o ∈ r.1, Bnd o) ∧
  (∃ new, r.2.1 = tr ++ new ∧ tradeVolume new = rq - r.2.2.2 ∧
    (∀ t ∈ new, 0 < t.quantity ∧ ∃ e ∈ h, ∃ o, findOrder os e.oid = some o ∧
      0 < o.remaining ∧ t.quantity ≤ o.remaining ∧ e.pkey ≤ lim ∧ t.price = o.price ∧
      (if tb then t.buyer_email = tko.user_email ∧ t.seller_email = o.user_email
       else t.buyer_email = o.user_email ∧ t.seller_email = tko.user_email))) ∧
  ((tko.side == "buy") = tb →
    filledSum r.1 true = filledSum os true + (rq - r.2.2.2) ∧
    filledSum r.1 false = filledSum os false + (rq - r.2.2.2))

/-- Example state: one resting ask 5@40 by alice (id 0, timestamp 0). -/
def demo1 : OrderBook := (process_order (tick init0 0) "alice" "sell" 40 5).1

/-- Example state: resting asks 5@40 (alice, id 0) and 5@50 (bob, id 1). -/
def demo2 : OrderBook := (process_order (tick demo1 1) "bob" "sell" 50 5).1

/-- Example state: carol's buy 12@60 sweeps both asks of `demo2` and rests
2@60 as a bid; two trades at prices 40 and 50. -/
def demo3 : OrderBook := (process_order (tick demo2 1) "carol" "buy" 60 12).1

/-- The state invariant maintained by the application: unique row ids below
the autoincrement counter, each heap entry linked to a distinct active row
of the matching side carrying the pushed key, every active row present in
its side's heap, quantity bounds on all rows, and both sides' filled totals
equal to each other and to the recorded trade volume. -/
structure Inv (s : OrderBook) : Prop where
  idsN : (s.orders.map (fun o => o.id)).Nodup
  idsLt : ∀ o ∈ s.orders, o.id < s.nextId
  bidsLink : ∀ e ∈ s.bids, entryLinked false s.orders e
  asksLink : ∀ e ∈ s.asks, entryLinked true s.orders e
  bidsN : (s.bids.map (fun e => e.oid)).Nodup
  asksN : (s.asks.map (fun e => e.oid)).Nodup
  bidsConv : ∀ o ∈ s.orders, o.side = "buy" → 0 < o.remaining →
    o.id ∈ s.bids.map (fun e => e.oid)
  asksConv : ∀ o ∈ s.orders, o.side ≠ "buy" → 0 < o.remaining →
    o.id ∈ s.asks.map (fun e => e.oid)
  bnd : ∀ o ∈ s.orders, Bnd o
  filledBal : filledSum s.orders true = filledSum s.orders false
  tradeBal : tradeVolume s.trades = filledSum s.orders true

/-! ### Utility lemmas: the key order, the heap root, table lookups -/

theorem entryKeyLt_irrefl (a : Entry) : ¬ entryKeyLt a a := by
  simp [entryKeyLt]

theorem entryKeyLt_asymm {a b : Entry} (h : entryKeyLt a b) : ¬ entryKeyLt b a := by
  unfold entryKeyLt at *; omega

theorem entryKeyLt_trans {a b c : Entry} (h₁ : entryKeyLt a b) (h₂ : entryKeyLt b c) :
    entryKeyLt a c := by
  unfold entryKeyLt at *; omega

theorem entryKeyLt_trichotomy (a b : Entry) : a = b ∨ entryKeyLt a b ∨ entryKeyLt b a := by
  cases a; cases b; simp [entryKeyLt, Entry.mk.injEq]; omega

theorem heapMin_eq_none {h : List Entry} : heapMin h = none ↔ h = [] := by
  cases h with
  | nil => simp [heapMin]
  | cons e es =>
    simp only [heapMin]
    cases heapMin es <;> simp

theorem heapMin_mem {h : List Entry} {m : Entry} (hm : heapMin h = some m) : m ∈ h := by
  induction h with
  | nil => simp [heapMin] at hm
  | cons e es ih =>
    simp only [heapMin] at hm
    cases hes : heapMin es with
    | none => rw [hes] at hm; simp at hm; simp [hm]
    | some m' =>
      rw [hes] at hm
      simp at hm
      by_cases hlt : entryKeyLt m' e
      · simp [hlt] at hm; subst hm; exact List.mem_cons_of_mem _ (ih hes)
      · simp [hlt] at hm; simp [hm]

theorem heapMin_least {h : List Entry} {m : Entry} (hm : heapMin h = some m) :
    ∀ a ∈ h, ¬ entryKeyLt a m := by
  induction h generalizing m with
  | nil => simp [heapMin] at hm
  | cons e es ih =>
    simp only [heapMin] at hm
    cases hes : heapMin es with
    | none =>
      rw [hes] at hm
      have hm' : m = e := by simpa using hm.symm
      rw [hm']
      have hnil : es = [] := heapMin_eq_none.mp hes
      subst hnil
      intro a ha
      have ha' : a = e := by simpa using ha
      rw [ha']
      exact entryKeyLt_irrefl e
    | some m' =>
      rw [hes] at hm
      have hm' : m = if entryKeyLt m' e then m' else e := by simpa using hm.symm
      rw [hm']
      intro a ha
      rcases List.mem_cons.mp ha with ha0 | ha'
      · rw [ha0]
        by_cases hlt : entryKeyLt m' e
        · rw [if_pos hlt]; exact entryKeyLt_asymm hlt
        · rw [if_neg hlt]; exact entryKeyLt_irrefl e
      · by_cases hlt : entryKeyLt m' e
        · rw [if_pos hlt]; exact ih hes a ha'
        · rw [if_neg hlt]
          intro hae
          have hnam : ¬ entryKeyLt a m' := ih hes a ha'
          rcases entryKeyLt_trichotomy m' e with heq | h1 | h1
          · exact hnam (heq ▸ hae)
          · exact hlt h1
          · exact hnam (entryKeyLt_trans hae h1)

theorem popMin_of_heapMin {h : List Entry} {m : Entry} (hm : heapMin h = some m) :
    popMin h = h.erase m := by
  simp [popMin, hm]

theorem findOrder_eq_some {os : List Order} {j : Nat} {o : Order}
    (h : findOrder os j = some o) : o ∈ os ∧ o.id = j := by
  refine ⟨List.mem_of_find?_eq_some h, ?_⟩
  have := List.find?_some h
  simpa using this

theorem findOrder_of_mem {os : List Order} {o : Order}
    (hnd : (os.map (fun x => x.id)).Nodup) (ho : o ∈ os) : findOrder os o.id = some o := by
  induction os with
  | nil => simp at ho
  | cons a os ih =>
    rcases List.mem_cons.mp ho with rfl | ho'
    · simp [findOrder]
    · simp only [List.map_cons, List.nodup_cons] at hnd
      have hne : a.id ≠ o.id := by
        intro he
        exact hnd.1 (he ▸ List.mem_map_of_mem (fun x => x.id) ho')
      have hb : (a.id == o.id) = false := by simp [hne]
      simp only [findOrder, List.find?_cons, hb]
      exact ih hnd.2 ho'

theorem findOrder_mapOrder {os : List Order} {i : Nat} {f : Order → Order}
    (hf : ∀ o, (f o).id = o.id) (j : Nat) :
    findOrder (mapOrder os i f) j
      = (findOrder os j).map (fun o => if o.id = i then f o else o) := by
  have hp : ((fun o : Order => o.id == j) ∘ (fun o => if o.id = i then f o else o))
      = (fun o : Order => o.id == j) := by
    funext o
    by_cases h : o.id = i <;> simp [Function.comp, h, hf]
  unfold findOrder mapOrder
  rw [List.find?_map, hp]

theorem findOrder_mapOrder_ne {os : List Order} {i : Nat} {f : Order → Order}
    (hf : ∀ o, (f o).id = o.id) {j : Nat} (hne : j ≠ i) :
    findOrder (mapOrder os i f) j = findOrder os j := by
  rw [findOrder_mapOrder hf]
  cases hfo : findOrder os j with
  | none => rfl
  | some o =>
    have := (findOrder_eq_some hfo).2
    simp [this, hne]

theorem mapOrder_map_id {os : List Order} {i : Nat} {f : Order → Order}
    (hf : ∀ o, (f o).id = o.id) :
    (mapOrder os i f).map (fun x => x.id) = os.map (fun x => x.id) := by
  unfold mapOrder
  rw [List.map_map]
  congr 1
  funext o
  by_cases h : o.id = i <;> simp [Function.comp, h, hf]

theorem mapOrder_map_sig {os : List Order} {i : Nat} {f : Order → Order}
    (hf : ∀ o, sig (f o) = sig o) :
    (mapOrder os i f).map sig = os.map sig := by
  unfold mapOrder
  rw [List.map_map]
  congr 1
  funext o
  by_cases h : o.id = i <;> simp [Function.comp, h, hf]

theorem sig_decRemaining (o : Order) (q : Int) :
    sig { o with remaining := o.remaining - q } = sig o := by
  simp [sig]

theorem decRemaining_map_sig (os : List Order) (i : Nat) (q : Int) :
    (decRemaining os i q).map sig = os.map sig := by
  exact mapOrder_map_sig (fun o => sig_decRemaining o q)

theorem sig_eq_iff {o o' : Order} : sig o = sig o' ↔
    o.id = o'.id ∧ o.user_email = o'.user_email ∧ o.side = o'.side ∧
    o.price = o'.price ∧ o.quantity = o'.quantity ∧ o.timestamp = o'.timestamp := by
  simp [sig, Prod.ext_iff]

theorem ordEvol_refl (os : List Order) : ordEvol os os := by
  refine ⟨fun j => rfl, fun j o o' h1 h2 => ?_⟩
  rw [h1] at h2
  cases h2
  exact ⟨rfl, le_refl _⟩

theorem ordEvol_trans {os₁ os₂ os₃ : List Order}
    (h12 : ordEvol os₁ os₂) (h23 : ordEvol os₂ os₃) : ordEvol os₁ os₃ := by
  refine ⟨fun j => (h23.1 j).trans (h12.1 j), fun j o o' h1 h3 => ?_⟩
  have hs : (findOrder os₂ j).isSome = true := by
    rw [h12.1 j, h1]; rfl
  cases h2 : findOrder os₂ j with
  | none => rw [h2] at hs; simp at hs
  | some om =>
    have a := h12.2 j o om h1 h2
    have b := h23.2 j om o' h2 h3
    exact ⟨b.1.trans a.1, b.2.trans a.2⟩

theorem findOrder_decRemaining (os : List Order) (i : Nat) (q : Int) (j : Nat) :
    findOrder (decRemaining os i q) j
      = (findOrder os j).map
          (fun o => if o.id = i then { o with remaining := o.remaining - q } else o) := by
  unfold decRemaining
  exact @findOrder_mapOrder os i (fun o => { o with remaining := o.remaining - q })
    (fun o => rfl) j

theorem findOrder_decRemaining_ne (os : List Order) (i : Nat) (q : Int) {j : Nat}
    (hne : j ≠ i) : findOrder (decRemaining os i q) j = findOrder os j := by
  unfold decRemaining
  exact @findOrder_mapOrder_ne os i (fun o => { o with remaining := o.remaining - q })
    (fun o => rfl) j hne

theorem ordEvol_decRemaining (os : List Order) (i : Nat) (q : Int) (hq : 0 ≤ q) :
    ordEvol os (decRemaining os i q) := by
  constructor
  · intro j
    rw [findOrder_decRemaining]
    cases findOrder os j <;> simp
  · intro j o o' h1 h2
    rw [findOrder_decRemaining, h1] at h2
    simp only [Option.map] at h2
    by_cases hi : o.id = i
    · rw [if_pos hi] at h2
      cases h2
      exact ⟨sig_decRemaining o q, by show o.remaining - q ≤ o.remaining; omega⟩
    · rw [if_neg hi] at h2
      cases h2
      exact ⟨rfl, le_refl _⟩

theorem ordEvol_record_trade (os : List Order) (tr : List Trade)
    (b s : Nat) (p q : Int) (hq : 0 ≤ q) :
    ordEvol os (record_trade os tr b s p q).1 :=
  ordEvol_trans (ordEvol_decRemaining os b q hq)
    (ordEvol_decRemaining (decRemaining os b q) s q hq)

/-! ### Unfolding lemmas for the matching loop -/

theorem matchLoop_zero (tb : Bool) (taker : Nat) (lim : Int) (os : List Order)
    (tr : List Trade) (h : List Entry) (rq : Int) :
    matchLoop tb taker lim 0 os tr h rq = (os, tr, h, rq) := rfl

theorem matchLoop_succ_none {h : List Entry} (hh : heapMin h = none) (tb : Bool)
    (taker : Nat) (lim : Int) (fuel : Nat) (os : List Order) (tr : List Trade) (rq : Int) :
    matchLoop tb taker lim (fuel + 1) os tr h rq = (os, tr, h, rq) := by
  simp [matchLoop, hh]

theorem matchLoop_succ_exit {h : List Entry} {m : Entry} (hh : heapMin h = some m)
    {lim rq : Int} (hg : ¬ (m.pkey ≤ lim ∧ 0 < rq)) (tb : Bool) (taker : Nat)
    (fuel : Nat) (os : List Order) (tr : List Trade) :
    matchLoop tb taker lim (fuel + 1) os tr h rq = (os, tr, h, rq) := by
  simp [matchLoop, hh, hg]

theorem matchLoop_succ_tomb {h : List Entry} {m : Entry} (hh : heapMin h = some m)
    {lim rq : Int} (hg : m.pkey ≤ lim ∧ 0 < rq) {os : List Order}
    (ht : (getOrder os m.oid).remaining ≤ 0) (tb : Bool) (taker : Nat)
    (fuel : Nat) (tr : List Trade) :
    matchLoop tb taker lim (fuel + 1) os tr h rq
      = matchLoop tb taker lim fuel os tr (popMin h) rq := by
  simp [matchLoop, hh, hg, ht]

theorem matchLoop_succ_trade {h : List Entry} {m : Entry} (hh : heapMin h = some m)
    {lim rq : Int} (hg : m.pkey ≤ lim ∧ 0 < rq) {os : List Order}
    (ht : ¬ (getOrder os m.oid).remaining ≤ 0) (tb : Bool) (taker : Nat)
    (fuel : Nat) (tr : List Trade) :
    matchLoop tb taker lim (fuel + 1) os tr h rq
      = (let tq := min rq (getOrder os m.oid).remaining
         let pr := if tb then m.pkey else -m.pkey
         let step := if tb then record_trade os tr taker m.oid pr tq
           else record_trade os tr m.oid taker pr tq
         let h' := if (getOrder step.1 m.oid).remaining = 0 then popMin h else h
         matchLoop tb taker lim fuel step.1 step.2 h' (rq - tq)) := by
  simp [matchLoop, hh, hg, ht]

theorem matchLoop_nonpos_rq {rq : Int} (hrq : rq ≤ 0) (tb : Bool) (taker : Nat)
    (lim : Int) (fuel : Nat) (os : List Order) (tr : List Trade) (h : List Entry) :
    matchLoop tb taker lim fuel os tr h rq = (os, tr, h, rq) := by
  cases fuel with
  | zero => rfl
  | succ n =>
    cases hh : heapMin h with
    | none => exact matchLoop_succ_none hh tb taker lim n os tr rq
    | some m =>
      refine matchLoop_succ_exit hh ?_ tb taker n os tr
      intro hc
      omega

/-! ### Facts about `record_trade` and the order table -/

theorem eq_of_mem_id {os : List Order} (hnd : (os.map (fun o => o.id)).Nodup)
    {o₁ o₂ : Order} (h₁ : o₁ ∈ os) (h₂ : o₂ ∈ os) (hid : o₁.id = o₂.id) : o₁ = o₂ := by
  have f₁ := findOrder_of_mem hnd h₁
  have f₂ := findOrder_of_mem hnd h₂
  rw [hid] at f₁
  rw [f₁] at f₂
  exact Option.some_inj.mp f₂

theorem mapOrder_of_notmem {os : List Order} {i : Nat} {f : Order → Order}
    (hi : i ∉ os.map (fun o => o.id)) : mapOrder os i f = os := by
  induction os with
  | nil => rfl
  | cons a os ih =>
    simp only [List.map_cons, List.mem_cons] at hi
    push_neg at hi
    simp only [mapOrder, List.map_cons]
    rw [if_neg (fun he => hi.1 he.symm)]
    have := ih (by intro hmem; exact hi.2 hmem)
    simpa [mapOrder] using this

theorem findOrder_record_trade_fst {os : List Order} {x y : Nat} (hxy : x ≠ y)
    {ox : Order} (hx : findOrder os x = some ox) (tr : List Trade) (p q : Int) :
    findOrder (record_trade os tr x y p q).1 x
      = some { ox with remaining := ox.remaining - q } := by
  show findOrder (decRemaining (decRemaining os x q) y q) x = _
  rw [findOrder_decRemaining_ne _ _ _ hxy, findOrder_decRemaining, hx]
  simp [(findOrder_eq_some hx).2]

theorem findOrder_record_trade_snd {os : List Order} {x y : Nat} (hxy : x ≠ y)
    {oy : Order} (hy : findOrder os y = some oy) (tr : List Trade) (p q : Int) :
    findOrder (record_trade os tr x y p q).1 y
      = some { oy with remaining := oy.remaining - q } := by
  show findOrder (decRemaining (decRemaining os x q) y q) y = _
  rw [findOrder_decRemaining]
  rw [findOrder_decRemaining_ne _ _ _ (fun he => hxy he.symm), hy]
  simp [(findOrder_eq_some hy).2]

theorem findOrder_record_trade_other {os : List Order} {x y j : Nat} (hjx : j ≠ x)
    (hjy : j ≠ y) (tr : List Trade) (p q : Int) :
    findOrder (record_trade os tr x y p q).1 j = findOrder os j := by
  show findOrder (decRemaining (decRemaining os x q) y q) j = _
  rw [findOrder_decRemaining_ne _ _ _ hjy, findOrder_decRemaining_ne _ _ _ hjx]

theorem record_trade_map_sig (os : List Order) (tr : List Trade) (x y : Nat)
    (p q : Int) : (record_trade os tr x y p q).1.map sig = os.map sig := by
  show (decRemaining (decRemaining os x q) y q).map sig = _
  rw [decRemaining_map_sig, decRemaining_map_sig]

theorem map_id_of_map_sig {os os' : List Order} (h : os'.map sig = os.map sig) :
    os'.map (fun o => o.id) = os.map (fun o => o.id) := by
  have h1 : (os'.map sig).map Prod.fst = (os.map sig).map Prod.fst := by rw [h]
  simpa [List.map_map, Function.comp, sig] using h1

theorem record_trade_snd (os : List Order) (tr : List Trade) (x y : Nat) (p q : Int) :
    (record_trade os tr x y p q).2
      = tr ++ [⟨(getOrder os x).user_email, (getOrder os y).user_email, p, q⟩] := rfl

theorem matchLoop_map_sig (tb : Bool) (taker : Nat) (lim : Int) :
    ∀ (fuel : Nat) (os : List Order) (tr : List Trade) (h : List Entry) (rq : Int),
      (matchLoop tb taker lim fuel os tr h rq).1.map sig = os.map sig := by
  intro fuel
  induction fuel with
  | zero => intro os tr h rq; rfl
  | succ n ih =>
    intro os tr h rq
    cases hh : heapMin h with
    | none => rw [matchLoop_succ_none hh]
    | some m =>
      by_cases hg : m.pkey ≤ lim ∧ 0 < rq
      · by_cases ht : (getOrder os m.oid).remaining ≤ 0
        · rw [matchLoop_succ_tomb hh hg ht]; exact ih os tr (popMin h) rq
        · rw [matchLoop_succ_trade hh hg ht]
          simp only []
          rw [ih]
          cases tb
          · simp [record_trade_map_sig]
          · simp [record_trade_map_sig]
      · rw [matchLoop_succ_exit hh hg]

/-! ### `filledSum` bookkeeping -/

theorem filledSum_cons (a : Order) (os : List Order) (b : Bool) :
    filledSum (a :: os) b
      = (if (a.side == "buy") == b then filled a else 0) + filledSum os b := by
  by_cases hc : ((a.side == "buy") == b) = true
  · simp [filledSum, List.filter_cons, hc]
  · simp [filledSum, List.filter_cons, hc]

theorem filledSum_decRemaining {os : List Order} {i : Nat} {oi : Order}
    (hio : findOrder os i = some oi) (hnd : (os.map (fun o => o.id)).Nodup)
    (q : Int) (b : Bool) :
    filledSum (decRemaining os i q) b
      = filledSum os b + (if (oi.side == "buy") == b then q else 0) := by
  induction os with
  | nil => simp [findOrder] at hio
  | cons a os ih =>
    simp only [List.map_cons, List.nodup_cons] at hnd
    by_cases hai : a.id = i
    · have : findOrder (a :: os) i = some a := by
        simp [findOrder, List.find?_cons, hai]
      rw [this] at hio
      have hoi : oi = a := (Option.some_inj.mp hio).symm
      rw [hoi]
      have hnot : i ∉ os.map (fun o => o.id) := hai ▸ hnd.1
      show filledSum
        ((if a.id = i then { a with remaining := a.remaining - q } else a)
          :: mapOrder os i (fun o => { o with remaining := o.remaining - q })) b = _
      rw [if_pos hai, mapOrder_of_notmem hnot, filledSum_cons, filledSum_cons]
      by_cases hc : ((a.side == "buy") == b) = true
      · simp only [hc, if_pos]
        show a.quantity - (a.remaining - q) + filledSum os b = _
        unfold filled
        omega
      · simp only [hc]
        simp [filled]
    · have hio' : findOrder os i = some oi := by
        have hb : (a.id == i) = false := by simp [hai]
        simpa [findOrder, List.find?_cons, hb] using hio
      show filledSum
        ((if a.id = i then { a with remaining := a.remaining - q } else a)
          :: mapOrder os i (fun o => { o with remaining := o.remaining - q })) b = _
      rw [if_neg hai, filledSum_cons, filledSum_cons]
      have := ih hio' hnd.2
      show _ + filledSum (decRemaining os i q) b = _
      rw [this]
      ring

/-! ### Bounds preservation and the refined trade-step unfolding -/

theorem Bnd_decRemaining {os : List Order} {i : Nat} {oi : Order}
    (hio : findOrder os i = some oi) (hnd : (os.map (fun o => o.id)).Nodup)
    {q : Int} (hq1 : 0 ≤ q) (hq2 : q ≤ oi.remaining) (hb : ∀ o ∈ os, Bnd o) :
    ∀ o ∈ decRemaining os i q, Bnd o := by
  intro o' ho'
  unfold decRemaining mapOrder at ho'
  obtain ⟨o, ho, rfl⟩ := List.mem_map.mp ho'
  by_cases hoi : o.id = i
  · have : o = oi := eq_of_mem_id hnd ho (findOrder_eq_some hio).1
      (hoi.trans (findOrder_eq_some hio).2.symm)
    subst this
    rw [if_pos hoi]
    have hbo := hb o ho
    unfold Bnd at hbo ⊢
    simp only []
    omega
  · rw [if_neg hoi]
    exact hb o ho

theorem oid_inj {h : List Entry} (hoids : (h.map (fun e => e.oid)).Nodup)
    {a b : Entry} (ha : a ∈ h) (hb : b ∈ h) (hne : a ≠ b) : a.oid ≠ b.oid := by
  intro he
  exact hne (List.inj_on_of_nodup_map hoids ha hb he)

theorem matchLoop_succ_trade' {h : List Entry} {m : Entry} (hh : heapMin h = some m)
    {lim rq : Int} (hg : m.pkey ≤ lim ∧ 0 < rq) {os : List Order} {om : Order}
    (hom : findOrder os m.oid = some om) (hpos : 0 < om.remaining)
    {taker : Nat} (htkm : taker ≠ m.oid) (tb : Bool) (fuel : Nat) (tr : List Trade) :
    matchLoop tb taker lim (fuel + 1) os tr h rq
      = matchLoop tb taker lim fuel
          (if tb then record_trade os tr taker m.oid m.pkey (min rq om.remaining)
           else record_trade os tr m.oid taker (-m.pkey) (min rq om.remaining)).1
          (if tb then record_trade os tr taker m.oid m.pkey (min rq om.remaining)
           else record_trade os tr m.oid taker (-m.pkey) (min rq om.remaining)).2
          (if om.remaining - min rq om.remaining = 0 then popMin h else h)
          (rq - min rq om.remaining) := by
  have hgo : getOrder os m.oid = om := by simp [getOrder, hom]
  have ht : ¬ (getOrder os m.oid).remaining ≤ 0 := by rw [hgo]; omega
  rw [matchLoop_succ_trade hh hg ht]
  cases tb
  · simp only [Bool.false_eq_true, if_false, hgo]
    have hf : findOrder (record_trade os tr m.oid taker (-m.pkey)
        (min rq om.remaining)).1 m.oid
        = some { om with remaining := om.remaining - min rq om.remaining } :=
      findOrder_record_trade_fst (fun he => htkm he.symm) hom tr _ _
    rw [show getOrder (record_trade os tr m.oid taker (-m.pkey)
        (min rq om.remaining)).1 m.oid
        = { om with remaining := om.remaining - min rq om.remaining } by
      simp [getOrder, hf]]
  · simp only [if_true, hgo]
    have hf : findOrder (record_trade os tr taker m.oid m.pkey
        (min rq om.remaining)).1 m.oid
        = some { om with remaining := om.remaining - min rq om.remaining } :=
      findOrder_record_trade_snd htkm hom tr _ _
    rw [show getOrder (record_trade os tr taker m.oid m.pkey
        (min rq om.remaining)).1 m.oid
        = { om with remaining := om.remaining - min rq om.remaining } by
      simp [getOrder, hf]]

theorem set_remaining_self (o : Order) : { o with remaining := o.remaining } = o := rfl

theorem MLConc_exit {tb : Bool} {taker : Nat} {lim : Int} {os : List Order}
    {tr : List Trade} {h : List Entry} {rq : Int} {tko : Order}
    (hlink : ∀ e ∈ h, entryLinked tb os e)
    (htko : findOrder os taker = some tko) (hrq : tko.remaining = rq) :
    MLConc tb taker lim os tr h rq tko (os, tr, h, rq) := by
  subst hrq
  refine ⟨List.Sublist.refl h, ordEvol_refl os, ?_, le_refl _, fun hx => hx, hlink,
    fun j _ _ => rfl, ?_, ?_, fun hb => hb, ⟨[], by simp, by simp [tradeVolume], by simp⟩,
    fun _ => ⟨by simp [filledSum], by simp [filledSum]⟩⟩
  · rw [set_remaining_self]; exact htko
  · intro j hj hj'; exact absurd hj hj'
  · intro a _ b _ _ hlt
    exact absurd hlt (lt_irrefl _)

theorem decRemaining_map_id (os : List Order) (i : Nat) (q : Int) :
    (decRemaining os i q).map (fun o => o.id) = os.map (fun o => o.id) :=
  mapOrder_map_id (fun o => rfl)

/-- The master lemma about the matching loop: under the loop preconditions
(unique row ids, linked active entries with unique ids, a taker row outside
the heap whose `remaining` tracks `remaining_qty`) every conjunct of
`MLConc` holds of the loop's result. -/
theorem matchLoop_main (tb : Bool) (taker : Nat) (lim : Int) :
    ∀ (fuel : Nat) (os : List Order) (tr : List Trade) (h : List Entry) (rq : Int)
      (tko : Order),
      (os.map (fun o => o.id)).Nodup →
      (∀ e ∈ h, entryLinked tb os e) →
      (h.map (fun e => e.oid)).Nodup →
      taker ∉ h.map (fun e => e.oid) →
      findOrder os taker = some tko →
      tko.remaining = rq →
      MLConc tb taker lim os tr h rq tko (matchLoop tb taker lim fuel os tr h rq) := by
  intro fuel
  induction fuel with
  | zero =>
    intro os tr h rq tko hids hlink hoids htk htko hrq
    rw [matchLoop_zero]
    exact MLConc_exit hlink htko hrq
  | succ n ih =>
    intro os tr h rq tko hids hlink hoids htk htko hrq
    cases hh : heapMin h with
    | none =>
      rw [matchLoop_succ_none hh]
      exact MLConc_exit hlink htko hrq
    | some m =>
      by_cases hg : m.pkey ≤ lim ∧ 0 < rq
      case neg =>
        rw [matchLoop_succ_exit hh hg]
        exact MLConc_exit hlink htko hrq
      case pos =>
      have hm_mem : m ∈ h := heapMin_mem hh
      obtain ⟨om, hom, hompos, homp⟩ := hlink m hm_mem
      have htkm : taker ≠ m.oid := by
        intro he
        exact htk (he ▸ List.mem_map_of_mem (fun e => e.oid) hm_mem)
      rw [matchLoop_succ_trade' hh hg hom hompos htkm]
      set tq : Int := min rq om.remaining with htqdef
      set stp := (if tb then record_trade os tr taker m.oid m.pkey tq
        else record_trade os tr m.oid taker (-m.pkey) tq) with hstp
      have htq0 : 0 < tq := lt_min hg.2 hompos
      have htqr : tq ≤ rq := min_le_left _ _
      have htqo : tq ≤ om.remaining := min_le_right _ _
      have hs_taker : findOrder stp.1 taker
          = some { tko with remaining := tko.remaining - tq } := by
        rw [hstp]; cases tb
        · exact findOrder_record_trade_snd (fun he => htkm he.symm) htko tr (-m.pkey) tq
        · exact findOrder_record_trade_fst htkm htko tr m.pkey tq
      have hs_m : findOrder stp.1 m.oid
          = some { om with remaining := om.remaining - tq } := by
        rw [hstp]; cases tb
        · exact findOrder_record_trade_fst (fun he => htkm he.symm) hom tr (-m.pkey) tq
        · exact findOrder_record_trade_snd htkm hom tr m.pkey tq
      have hs_other : ∀ j, j ≠ taker → j ≠ m.oid → findOrder stp.1 j = findOrder os j := by
        intro j hj1 hj2
        rw [hstp]; cases tb
        · exact findOrder_record_trade_other hj2 hj1 tr (-m.pkey) tq
        · exact findOrder_record_trade_other hj1 hj2 tr m.pkey tq
      have hs_sig : stp.1.map sig = os.map sig := by
        rw [hstp]; cases tb
        · exact record_trade_map_sig os tr m.oid taker (-m.pkey) tq
        · exact record_trade_map_sig os tr taker m.oid m.pkey tq
      have hs_idsN : (stp.1.map (fun o => o.id)).Nodup := by
        rw [map_id_of_map_sig hs_sig]; exact hids
      have hs_evol : ordEvol os stp.1 := by
        rw [hstp]; cases tb
        · exact ordEvol_record_trade os tr m.oid taker (-m.pkey) tq (le_of_lt htq0)
        · exact ordEvol_record_trade os tr taker m.oid m.pkey tq (le_of_lt htq0)
      have hs_bnd : (∀ o ∈ os, Bnd o) → ∀ o ∈ stp.1, Bnd o := by
        intro hb
        have htqtko : tq ≤ tko.remaining := by omega
        rw [hstp]; cases tb
        · show ∀ o ∈ decRemaining (decRemaining os m.oid tq) taker tq, Bnd o
          have hfo : findOrder (decRemaining os m.oid tq) taker = some tko := by
            rw [findOrder_decRemaining_ne _ _ _ htkm]; exact htko
          exact Bnd_decRemaining hfo (by rw [decRemaining_map_id]; exact hids)
            (le_of_lt htq0) htqtko (Bnd_decRemaining hom hids (le_of_lt htq0) htqo hb)
        · show ∀ o ∈ decRemaining (decRemaining os taker tq) m.oid tq, Bnd o
          have hfo : findOrder (decRemaining os taker tq) m.oid = some om := by
            rw [findOrder_decRemaining_ne _ _ _ (fun he => htkm he.symm)]; exact hom
          exact Bnd_decRemaining hfo (by rw [decRemaining_map_id]; exact hids)
            (le_of_lt htq0) htqo (Bnd_decRemaining htko hids (le_of_lt htq0) htqtko hb)
      have hfs : ∀ b : Bool, filledSum stp.1 b
          = filledSum os b + (if ((tko.side == "buy") == b) = true then tq else 0)
            + (if ((om.side == "buy") == b) = true then tq else 0) := by
        intro b
        rw [hstp]; cases tb
        · show filledSum (decRemaining (decRemaining os m.oid tq) taker tq) b = _
          rw [filledSum_decRemaining
              (show findOrder (decRemaining os m.oid tq) taker = some tko by
                rw [findOrder_decRemaining_ne _ _ _ htkm]; exact htko)
              (by rw [decRemaining_map_id]; exact hids) tq b,
            filledSum_decRemaining hom hids tq b]
          ring
        · show filledSum (decRemaining (decRemaining os taker tq) m.oid tq) b = _
          rw [filledSum_decRemaining
              (show findOrder (decRemaining os taker tq) m.oid = some om by
                rw [findOrder_decRemaining_ne _ _ _ (fun he => htkm he.symm)]; exact hom)
              (by rw [decRemaining_map_id]; exact hids) tq b,
            filledSum_decRemaining htko hids tq b]
      have hs_tr : stp.2 = tr ++ [⟨(if tb then tko.user_email else om.user_email),
          (if tb then om.user_email else tko.user_email),
          (if tb then m.pkey else -m.pkey), tq⟩] := by
        rw [hstp]; cases tb
        · show (record_trade os tr m.oid taker (-m.pkey) tq).2 = _
          rw [record_trade_snd]
          simp [getOrder, hom, htko]
        · show (record_trade os tr taker m.oid m.pkey tq).2 = _
          rw [record_trade_snd]
          simp [getOrder, hom, htko]
      have ht0pay : ∀ t : Trade, t = ⟨(if tb then tko.user_email else om.user_email),
            (if tb then om.user_email else tko.user_email),
            (if tb then m.pkey else -m.pkey), tq⟩ →
          0 < t.quantity ∧ ∃ e ∈ h, ∃ o, findOrder os e.oid = some o ∧
            0 < o.remaining ∧ t.quantity ≤ o.remaining ∧ e.pkey ≤ lim ∧ t.price = o.price ∧
            (if tb then t.buyer_email = tko.user_email ∧ t.seller_email = o.user_email
             else t.buyer_email = o.user_email ∧ t.seller_email = tko.user_email) := by
        intro t ht
        subst ht
        refine ⟨htq0, m, hm_mem, om, hom, hompos, htqo, hg.1, ?_, ?_⟩
        · cases tb
          · simp only [Bool.false_eq_true, if_false] at homp ⊢
            rw [homp.1]; ring
          · simp only [if_true] at homp ⊢
            exact homp.1
        · cases tb
          · simp only [Bool.false_eq_true, if_false]
            trivial
          · simp only [if_true]
            trivial
      have hmside : (om.side == "buy") = !tb := by
        cases tb
        · simp only [Bool.false_eq_true, if_false] at homp
          simp [homp.2]
        · simp only [if_true] at homp
          simp [homp.2]
      by_cases hpop : om.remaining - tq = 0
      · rw [if_pos hpop]
        have hh1 : popMin h = h.erase m := popMin_of_heapMin hh
        rw [hh1]
        have hHnd : h.Nodup := hoids.of_map
        have h1sub : List.Sublist (h.erase m) h := List.erase_sublist m h
        have h1link : ∀ e ∈ h.erase m, entryLinked tb stp.1 e := by
          intro e he
          obtain ⟨hne, heh⟩ := hHnd.mem_erase_iff.mp he
          have hoidne : e.oid ≠ m.oid := oid_inj hoids heh hm_mem hne
          have hoidtk : e.oid ≠ taker := fun hx => htk (hx ▸ List.mem_map_of_mem _ heh)
          obtain ⟨o, hoe, hop, hos⟩ := hlink e heh
          exact ⟨o, by rw [hs_other e.oid hoidtk hoidne]; exact hoe, hop, hos⟩
        have h1oids : ((h.erase m).map (fun e => e.oid)).Nodup := hoids.sublist (h1sub.map _)
        have h1tk : taker ∉ (h.erase m).map (fun e => e.oid) :=
          fun hx => htk ((h1sub.map _).subset hx)
        have hmoid1 : m.oid ∉ (h.erase m).map (fun e => e.oid) := by
          intro hx
          obtain ⟨e, he, heq⟩ := List.mem_map.mp hx
          obtain ⟨hne, heh⟩ := hHnd.mem_erase_iff.mp he
          exact oid_inj hoids heh hm_mem hne heq
        have h1tko : findOrder stp.1 taker = some { tko with remaining := rq - tq } := by
          rw [← hrq]
          exact hs_taker
        have IH := ih stp.1 stp.2 (h.erase m) (rq - tq) { tko with remaining := rq - tq }
          hs_idsN h1link h1oids h1tk h1tko rfl
        unfold MLConc at IH
        obtain ⟨I1, I2, I3, I4, I5, I6, I7, I8, I9, I10, I11, I12⟩ := IH
        unfold MLConc
        refine ⟨I1.trans h1sub, ordEvol_trans hs_evol I2, I3, by omega,
          fun h0 => I5 (by omega), I6, ?_, ?_, ?_, fun hb => I10 (hs_bnd hb), ?_, ?_⟩
        · intro j hj1 hj2
          have hjm : j ≠ m.oid := fun hx => hj2 (hx ▸ List.mem_map_of_mem _ hm_mem)
          have hj2' : j ∉ (h.erase m).map (fun e => e.oid) :=
            fun hx => hj2 ((h1sub.map _).subset hx)
          rw [I7 j hj1 hj2', hs_other j hj1 hjm]
        · intro j hjh hjr
          by_cases hjm : j = m.oid
          · subst hjm
            have hfr : findOrder (matchLoop tb taker lim n stp.1 stp.2 (h.erase m)
                  (rq - tq)).1 m.oid = findOrder stp.1 m.oid :=
              I7 m.oid (fun hx => htkm hx.symm) hmoid1
            unfold rem getOrder
            rw [hfr, hs_m]
            simpa using hpop
          · obtain ⟨e, heh, heq⟩ := List.mem_map.mp hjh
            have hne : e ≠ m := fun hx => hjm (by rw [← heq, hx])
            have he1 : e ∈ h.erase m := hHnd.mem_erase_iff.mpr ⟨hne, heh⟩
            exact I8 j (heq ▸ List.mem_map_of_mem _ he1) hjr
        · intro a ha b hb hab htouch
          by_cases hbm : b = m
          · subst hbm
            exact absurd hab (heapMin_least hh a ha)
          · have hbne : b.oid ≠ m.oid := oid_inj hoids hb hm_mem hbm
            have hbtk : b.oid ≠ taker := fun hx => htk (hx ▸ List.mem_map_of_mem _ hb)
            have hb1 : b ∈ h.erase m := hHnd.mem_erase_iff.mpr ⟨hbm, hb⟩
            have hbos : findOrder stp.1 b.oid = findOrder os b.oid := hs_other _ hbtk hbne
            have htouch' : rem (matchLoop tb taker lim n stp.1 stp.2 (h.erase m)
                  (rq - tq)).1 b.oid < rem stp.1 b.oid := by
              unfold rem getOrder at htouch ⊢
              rw [hbos]
              exact htouch
            by_cases ham : a = m
            · rw [ham]
              have hfr : findOrder (matchLoop tb taker lim n stp.1 stp.2 (h.erase m)
                    (rq - tq)).1 m.oid = findOrder stp.1 m.oid :=
                I7 m.oid (fun hx => htkm hx.symm) hmoid1
              unfold rem getOrder
              rw [hfr, hs_m]
              simpa using hpop
            · have ha1 : a ∈ h.erase m := hHnd.mem_erase_iff.mpr ⟨ham, ha⟩
              exact I9 a ha1 b hb1 hab htouch'
        · obtain ⟨new1, hnew1, hvol1, hpay1⟩ := I11
          refine ⟨⟨(if tb then tko.user_email else om.user_email),
            (if tb then om.user_email else tko.user_email),
            (if tb then m.pkey else -m.pkey), tq⟩ :: new1, ?_, ?_, ?_⟩
          · rw [hnew1, hs_tr]
            simp
          · show tradeVolume _ = rq - (matchLoop tb taker lim n stp.1 stp.2 (h.erase m)
              (rq - tq)).2.2.2
            simp only [tradeVolume, List.map_cons, List.sum_cons] at hvol1 ⊢
            omega
          · intro t ht
            rcases List.mem_cons.mp ht with rfl | ht'
            · exact ht0pay _ rfl
            · obtain ⟨ht_pos, e, he1, o, hoe, hop, hqt, hpl, hpr, hem⟩ := hpay1 t ht'
              obtain ⟨hne, heh⟩ := hHnd.mem_erase_iff.mp he1
              have hoidne : e.oid ≠ m.oid := oid_inj hoids heh hm_mem hne
              have hoidtk : e.oid ≠ taker := fun hx => htk (hx ▸ List.mem_map_of_mem _ heh)
              refine ⟨ht_pos, e, heh, o, ?_, hop, hqt, hpl, hpr, hem⟩
              rw [← hs_other e.oid hoidtk hoidne]
              exact hoe
        · intro hside
          have key : ∀ b : Bool, filledSum stp.1 b = filledSum os b + tq := by
            intro b
            rw [hfs b, hside, hmside]
            cases tb <;> cases b <;> simp
          obtain ⟨k1, k2⟩ := I12 hside
          constructor
          · rw [k1, key true]; omega
          · rw [k2, key false]; omega
      · rw [if_neg hpop]
        rw [matchLoop_nonpos_rq (by omega)]
        unfold MLConc
        refine ⟨List.Sublist.refl h, hs_evol, ?_, by show rq - tq ≤ rq; omega,
          fun h0 => by show (0 : Int) ≤ rq - tq; omega, ?_,
          ?_, ?_, ?_, hs_bnd, ?_, ?_⟩
        · show findOrder stp.1 taker = some { tko with remaining := rq - tq }
          rw [← hrq]
          exact hs_taker
        · intro e he
          by_cases hem : e = m
          · subst hem
            refine ⟨{ om with remaining := om.remaining - tq }, hs_m, ?_, ?_⟩
            · show 0 < om.remaining - tq
              omega
            · cases tb
              · simp only [Bool.false_eq_true, if_false] at homp ⊢
                exact homp
              · simp only [if_true] at homp ⊢
                exact homp
          · have hoidne : e.oid ≠ m.oid := oid_inj hoids he hm_mem hem
            have hoidtk : e.oid ≠ taker := fun hx => htk (hx ▸ List.mem_map_of_mem _ he)
            obtain ⟨o, hoe, hop, hos⟩ := hlink e he
            exact ⟨o, by rw [hs_other e.oid hoidtk hoidne]; exact hoe, hop, hos⟩
        · intro j hj1 hj2
          exact hs_other j hj1 (fun hx => hj2 (hx ▸ List.mem_map_of_mem _ hm_mem))
        · intro j hjh hjr
          exact absurd hjh hjr
        · intro a ha b hb hab htouch
          by_cases hbm : b = m
          · subst hbm
            exact absurd hab (heapMin_least hh a ha)
          · exfalso
            have hbne : b.oid ≠ m.oid := oid_inj hoids hb hm_mem hbm
            have hbtk : b.oid ≠ taker := fun hx => htk (hx ▸ List.mem_map_of_mem _ hb)
            have hbos : findOrder stp.1 b.oid = findOrder os b.oid := hs_other _ hbtk hbne
            unfold rem getOrder at htouch
            rw [hbos] at htouch
            exact lt_irrefl _ htouch
        · refine ⟨[⟨(if tb then tko.user_email else om.user_email),
            (if tb then om.user_email else tko.user_email),
            (if tb then m.pkey else -m.pkey), tq⟩], hs_tr, ?_, ?_⟩
          · show tradeVolume _ = rq - (rq - tq)
            simp only [tradeVolume, List.map_cons, List.sum_cons, List.map_nil,
              List.sum_nil]
            omega
          · intro t ht
            rcases List.mem_cons.mp ht with rfl | ht'
            · exact ht0pay _ rfl
            · simp at ht'
        · intro hside
          have key : ∀ b : Bool, filledSum stp.1 b = filledSum os b + tq := by
            intro b
            rw [hfs b, hside, hmside]
            cases tb <;> cases b <;> simp
          constructor
          · show filledSum stp.1 true = filledSum os true + (rq - (rq - tq))
            rw [key true]; omega
          · show filledSum stp.1 false = filledSum os false + (rq - (rq - tq))
            rw [key false]; omega

/-! ### Lifting the invariant across `process_order` -/

theorem findOrder_append_left {os₁ os₂ : List Order} {j : Nat} {o : Order}
    (h : findOrder os₁ j = some o) : findOrder (os₁ ++ os₂) j = some o := by
  unfold findOrder at *
  rw [List.find?_append, h]
  rfl

theorem findOrder_append_right {os₁ os₂ : List Order} {j : Nat}
    (h : findOrder os₁ j = none) : findOrder (os₁ ++ os₂) j = findOrder os₂ j := by
  unfold findOrder at *
  rw [List.find?_append, h]
  rfl

theorem findOrder_eq_none_iff {os : List Order} {j : Nat} :
    findOrder os j = none ↔ ∀ o ∈ os, o.id ≠ j := by
  unfold findOrder
  rw [List.find?_eq_none]
  simp

theorem entryLinked_append {tb : Bool} {os : List Order} {e : Entry}
    (h : entryLinked tb os e) (w : Order) : entryLinked tb (os ++ [w]) e := by
  obtain ⟨o, ho, hp, hc⟩ := h
  exact ⟨o, findOrder_append_left ho, hp, hc⟩

theorem Bnd_new (i : Nat) (em sd : String) (p q : Int) (ts : Nat) :
    Bnd ⟨i, em, sd, p, q, q, ts⟩ :=
  ⟨le_refl _, fun h => le_of_lt h, fun _ => rfl⟩

theorem filledSum_append (l₁ l₂ : List Order) (b : Bool) :
    filledSum (l₁ ++ l₂) b = filledSum l₁ b + filledSum l₂ b := by
  unfold filledSum
  rw [List.filter_append, List.map_append, List.sum_append]

theorem tradeVolume_append (l₁ l₂ : List Trade) :
    tradeVolume (l₁ ++ l₂) = tradeVolume l₁ + tradeVolume l₂ := by
  unfold tradeVolume
  rw [List.map_append, List.sum_append]

theorem filledSum_fresh (i : Nat) (em sd : String) (p q : Int) (ts : Nat) (b : Bool) :
    filledSum [⟨i, em, sd, p, q, q, ts⟩] b = 0 := by
  rw [show ([⟨i, em, sd, p, q, q, ts⟩] : List Order)
      = ⟨i, em, sd, p, q, q, ts⟩ :: [] from rfl, filledSum_cons]
  simp [filled, filledSum]

/-- Ids stored in the heaps are ids of existing rows, hence below `nextId`. -/
theorem heap_oid_lt {s : OrderBook} (hInv : Inv s) :
    (∀ e ∈ s.asks, e.oid < s.nextId) ∧ (∀ e ∈ s.bids, e.oid < s.nextId) := by
  constructor
  · intro e he
    obtain ⟨o, ho, _, _⟩ := hInv.asksLink e he
    obtain ⟨hmem, hid⟩ := findOrder_eq_some ho
    exact hid ▸ hInv.idsLt o hmem
  · intro e he
    obtain ⟨o, ho, _, _⟩ := hInv.bidsLink e he
    obtain ⟨hmem, hid⟩ := findOrder_eq_some ho
    exact hid ▸ hInv.idsLt o hmem

theorem ids_append_new {s : OrderBook} (hInv : Inv s) {w : Order}
    (hw : w.id = s.nextId) :
    (((s.orders ++ [w]).map (fun o => o.id))).Nodup := by
  rw [List.map_append, List.nodup_append]
  refine ⟨hInv.idsN, List.nodup_singleton _, ?_⟩
  intro x hx hy
  obtain ⟨o, ho, rfl⟩ := List.mem_map.mp hx
  simp only [List.map_cons, List.map_nil, List.mem_singleton] at hy
  have hlt := hInv.idsLt o ho
  rw [hy, hw] at hlt
  exact lt_irrefl _ hlt

theorem findOrder_new {s : OrderBook} (hInv : Inv s) (w : Order)
    (hw : w.id = s.nextId) : findOrder (s.orders ++ [w]) s.nextId = some w := by
  rw [findOrder_append_right]
  · unfold findOrder
    simp [List.find?_cons, hw]
  · rw [findOrder_eq_none_iff]
    intro o ho
    exact Nat.ne_of_lt (hInv.idsLt o ho)

theorem process_order_buy_def (s : OrderBook) (em : String) (p q : Int) :
    process_order s em "buy" p q
      = (let r := matchLoop true s.nextId p (s.asks.length + 1)
            (s.orders ++ [⟨s.nextId, em, "buy", p, q, q, s.now⟩]) s.trades s.asks q
         ({ orders := r.1, trades := r.2.1,
            bids := if 0 < r.2.2.2 then Entry.mk (-p) s.now s.nextId :: s.bids
              else s.bids,
            asks := r.2.2.1, nextId := s.nextId + 1, now := s.now }, true)) := rfl

theorem process_order_sell_def (s : OrderBook) {sd : String} (hsd : sd ≠ "buy")
    (em : String) (p q : Int) :
    process_order s em sd p q
      = (let r := matchLoop false s.nextId (-p) (s.bids.length + 1)
            (s.orders ++ [⟨s.nextId, em, sd, p, q, q, s.now⟩]) s.trades s.bids q
         ({ orders := r.1, trades := r.2.1, bids := r.2.2.1,
            asks := if 0 < r.2.2.2 then Entry.mk p s.now s.nextId :: s.asks
              else s.asks,
            nextId := s.nextId + 1, now := s.now }, true)) := by
  simp only [process_order, if_neg hsd]

/-- The loop preconditions hold at the call site of the buy branch. -/
theorem process_pre_buy (s : OrderBook) (hInv : Inv s) (em : String) (p q : Int) :
    MLConc true s.nextId p (s.orders ++ [⟨s.nextId, em, "buy", p, q, q, s.now⟩])
      s.trades s.asks q ⟨s.nextId, em, "buy", p, q, q, s.now⟩
      (matchLoop true s.nextId p (s.asks.length + 1)
        (s.orders ++ [⟨s.nextId, em, "buy", p, q, q, s.now⟩]) s.trades s.asks q) := by
  refine matchLoop_main true s.nextId p (s.asks.length + 1) _ s.trades s.asks q _
    (ids_append_new hInv rfl) ?_ hInv.asksN ?_ (findOrder_new hInv _ rfl) rfl
  · intro e he
    exact entryLinked_append (hInv.asksLink e he) _
  · intro hx
    obtain ⟨e, he, heq⟩ := List.mem_map.mp hx
    exact absurd ((heap_oid_lt hInv).1 e he) (by rw [heq]; exact lt_irrefl _)

/-- The loop preconditions hold at the call site of the sell branch. -/
theorem process_pre_sell (s : OrderBook) (hInv : Inv s) (em sd : String) (p q : Int) :
    MLConc false s.nextId (-p) (s.orders ++ [⟨s.nextId, em, sd, p, q, q, s.now⟩])
      s.trades s.bids q ⟨s.nextId, em, sd, p, q, q, s.now⟩
      (matchLoop false s.nextId (-p) (s.bids.length + 1)
        (s.orders ++ [⟨s.nextId, em, sd, p, q, q, s.now⟩]) s.trades s.bids q) := by
  refine matchLoop_main false s.nextId (-p) (s.bids.length + 1) _ s.trades s.bids q _
    (ids_append_new hInv rfl) ?_ hInv.bidsN ?_ (findOrder_new hInv _ rfl) rfl
  · intro e he
    exact entryLinked_append (hInv.bidsLink e he) _
  · intro hx
    obtain ⟨e, he, heq⟩ := List.mem_map.mp hx
    exact absurd ((heap_oid_lt hInv).2 e he) (by rw [heq]; exact lt_irrefl _)

theorem findOrder_append_ne {os : List Order} {w : Order} {j : Nat} (h : j ≠ w.id) :
    findOrder (os ++ [w]) j = findOrder os j := by
  cases hfo : findOrder os j with
  | none =>
    rw [findOrder_append_right hfo]
    unfold findOrder
    have hb : (w.id == j) = false := by simp; exact fun he => h he.symm
    simp [List.find?_cons, hb]
  | some o => exact findOrder_append_left hfo

/-- A heap id of one side never also indexes a row of the other side. -/
theorem oid_side_conflict {s : OrderBook} (hInv : Inv s) {o : Order}
    (ho : findOrder s.orders o.id = some o) :
    (o.side = "buy" → o.id ∉ s.asks.map (fun e => e.oid)) ∧
    (o.side ≠ "buy" → o.id ∉ s.bids.map (fun e => e.oid)) := by
  constructor
  · intro hside hx
    obtain ⟨e, he, heq⟩ := List.mem_map.mp hx
    obtain ⟨o', ho', _, hc⟩ := hInv.asksLink e he
    rw [heq, ho] at ho'
    cases ho'
    simp only [if_true] at hc
    exact hc.2 hside
  · intro hside hx
    obtain ⟨e, he, heq⟩ := List.mem_map.mp hx
    obtain ⟨o', ho', _, hc⟩ := hInv.bidsLink e he
    rw [heq, ho] at ho'
    cases ho'
    simp only [Bool.false_eq_true, if_false] at hc
    exact hside hc.2

theorem inv_process_buy (s : OrderBook) (hInv : Inv s) (em : String) (p q : Int) :
    Inv (process_order s em "buy" p q).1 := by
  have hP := process_pre_buy s hInv em p q
  unfold MLConc at hP
  obtain ⟨P1, P2, P3, P4, P5, P6, P7, P8, P9, P10, P11, P12⟩ := hP
  rw [process_order_buy_def]
  set w : Order := (⟨s.nextId, em, "buy", p, q, q, s.now⟩ : Order) with hwdef
  set R := matchLoop true s.nextId p (s.asks.length + 1) (s.orders ++ [w])
    s.trades s.asks q with hRdef
  show Inv (OrderBook.mk R.1 R.2.1
    (if 0 < R.2.2.2 then Entry.mk (-p) s.now s.nextId :: s.bids else s.bids)
    R.2.2.1 (s.nextId + 1) s.now)
  have hsig : R.1.map sig = (s.orders ++ [w]).map sig := matchLoop_map_sig _ _ _ _ _ _ _ _
  have hids_eq : R.1.map (fun o => o.id) = (s.orders ++ [w]).map (fun o => o.id) :=
    map_id_of_map_sig hsig
  have hidsN_R : (R.1.map (fun o => o.id)).Nodup := by
    rw [hids_eq]; exact ids_append_new hInv rfl
  have hold_frame : ∀ e ∈ s.bids, findOrder R.1 e.oid = findOrder s.orders e.oid := by
    intro e he
    obtain ⟨o, ho, hpos, hc⟩ := hInv.bidsLink e he
    simp only [Bool.false_eq_true, if_false] at hc
    have hne_t : e.oid ≠ s.nextId := Nat.ne_of_lt ((heap_oid_lt hInv).2 e he)
    have hoid : o.id = e.oid := (findOrder_eq_some ho).2
    have hnotin : e.oid ∉ s.asks.map (fun x => x.oid) := by
      have := (oid_side_conflict hInv (hoid ▸ ho)).1 hc.2
      rw [hoid] at this
      exact this
    rw [P7 e.oid hne_t hnotin, findOrder_append_ne hne_t]
  constructor
  case idsN => exact hidsN_R
  case idsLt =>
    intro o ho
    have hmm : o.id ∈ (s.orders ++ [w]).map (fun o => o.id) := by
      rw [← hids_eq]; exact List.mem_map_of_mem _ ho
    rw [List.map_append] at hmm
    rcases List.mem_append.mp hmm with hl | hr
    · obtain ⟨o', ho', heq⟩ := List.mem_map.mp hl
      rw [← heq]
      exact Nat.lt_succ_of_lt (hInv.idsLt o' ho')
    · simp only [List.map_cons, List.map_nil, List.mem_singleton] at hr
      rw [hr]
      exact Nat.lt_succ_self _
  case bidsLink =>
    show ∀ e ∈ (if 0 < R.2.2.2 then Entry.mk (-p) s.now s.nextId :: s.bids else s.bids),
      entryLinked false R.1 e
    intro e he
    have hlift : ∀ e ∈ s.bids, entryLinked false R.1 e := by
      intro e' he'
      obtain ⟨o, ho, hpos, hc⟩ := hInv.bidsLink e' he'
      exact ⟨o, by rw [hold_frame e' he']; exact ho, hpos, hc⟩
    by_cases hrq : 0 < R.2.2.2
    · rw [if_pos hrq] at he
      rcases List.mem_cons.mp he with rfl | he'
      · exact ⟨{ w with remaining := R.2.2.2 }, P3, hrq, by
          simp only [Bool.false_eq_true, if_false]
          trivial⟩
      · exact hlift _ he'
    · rw [if_neg hrq] at he
      exact hlift _ he
  case asksLink => exact P6
  case bidsN =>
    show (((if 0 < R.2.2.2 then Entry.mk (-p) s.now s.nextId :: s.bids else s.bids)).map
      (fun e => e.oid)).Nodup
    by_cases hrq : 0 < R.2.2.2
    · rw [if_pos hrq]
      simp only [List.map_cons, List.nodup_cons]
      refine ⟨?_, hInv.bidsN⟩
      intro hx
      obtain ⟨e, he, heq⟩ := List.mem_map.mp hx
      exact absurd ((heap_oid_lt hInv).2 e he) (by rw [heq]; exact lt_irrefl _)
    · rw [if_neg hrq]
      exact hInv.bidsN
  case asksN => exact hInv.asksN.sublist (P1.map _)
  case bidsConv =>
    show ∀ o ∈ R.1, o.side = "buy" → 0 < o.remaining → o.id ∈
      ((if 0 < R.2.2.2 then Entry.mk (-p) s.now s.nextId :: s.bids else s.bids)).map
        (fun e => e.oid)
    intro o' ho' hside hpos
    have hfr' : findOrder R.1 o'.id = some o' := findOrder_of_mem hidsN_R ho'
    have hmm : o'.id ∈ (s.orders ++ [w]).map (fun o => o.id) := by
      rw [← hids_eq]; exact List.mem_map_of_mem _ ho'
    rw [List.map_append] at hmm
    rcases List.mem_append.mp hmm with hl | hr
    · obtain ⟨o, ho, heq⟩ := List.mem_map.mp hl
      have hne_t : o'.id ≠ s.nextId := by rw [← heq]; exact Nat.ne_of_lt (hInv.idsLt o ho)
      have hfo : findOrder s.orders o'.id = some o := by
        rw [← heq]; exact findOrder_of_mem hInv.idsN ho
      have hnotin : o'.id ∉ s.asks.map (fun x => x.oid) := by
        have hfo0 : findOrder (s.orders ++ [w]) o'.id = some o := findOrder_append_left hfo
        have hsome' : findOrder R.1 o'.id = some o' := hfr'
        -- relate sides through the evolution
        obtain ⟨hsg, _⟩ := P2.2 o'.id o o' hfo0 hsome'
        have hsides : o.side = o'.side := (sig_eq_iff.mp hsg).2.2.1.symm
        have := (oid_side_conflict hInv ((findOrder_eq_some hfo).2 ▸ hfo)).1
          (by rw [hsides]; exact hside)
        rw [(findOrder_eq_some hfo).2] at this
        exact this
      have hfr : findOrder R.1 o'.id = findOrder (s.orders ++ [w]) o'.id :=
        P7 o'.id hne_t hnotin
      have hfo' : findOrder s.orders o'.id = some o' := by
        rw [← findOrder_append_ne (show o'.id ≠ w.id from hne_t), ← hfr]
        exact hfr'
      have hin := hInv.bidsConv o' (findOrder_eq_some hfo').1 hside hpos
      by_cases hrq : 0 < R.2.2.2
      · rw [if_pos hrq]
        simp only [List.map_cons]
        exact List.mem_cons_of_mem _ hin
      · rw [if_neg hrq]
        exact hin
    · simp only [List.map_cons, List.map_nil, List.mem_singleton] at hr
      have hfo0 : findOrder R.1 o'.id = some { w with remaining := R.2.2.2 } := by
        rw [hr]; exact P3
      rw [hfr'] at hfo0
      cases hfo0
      have hrq : 0 < R.2.2.2 := hpos
      rw [if_pos hrq]
      simp
  case asksConv =>
    show ∀ o ∈ R.1, o.side ≠ "buy" → 0 < o.remaining → o.id ∈
      R.2.2.1.map (fun e => e.oid)
    intro o' ho' hside hpos
    have hfr' : findOrder R.1 o'.id = some o' := findOrder_of_mem hidsN_R ho'
    have hmm : o'.id ∈ (s.orders ++ [w]).map (fun o => o.id) := by
      rw [← hids_eq]; exact List.mem_map_of_mem _ ho'
    rw [List.map_append] at hmm
    rcases List.mem_append.mp hmm with hl | hr
    · obtain ⟨o, ho, heq⟩ := List.mem_map.mp hl
      have hne_t : o'.id ≠ s.nextId := by rw [← heq]; exact Nat.ne_of_lt (hInv.idsLt o ho)
      have hfo : findOrder s.orders o'.id = some o := by
        rw [← heq]; exact findOrder_of_mem hInv.idsN ho
      have hfo0 : findOrder (s.orders ++ [w]) o'.id = some o := findOrder_append_left hfo
      obtain ⟨hsg, hle⟩ := P2.2 o'.id o o' hfo0 hfr'
      have hsides : o.side = o'.side := (sig_eq_iff.mp hsg).2.2.1.symm
      have hin := hInv.asksConv o (findOrder_eq_some hfo).1
        (by rw [hsides]; exact hside) (by omega)
      rw [(findOrder_eq_some hfo).2] at hin
      by_contra hnot
      have h0 : rem R.1 o'.id = 0 := P8 o'.id hin hnot
      unfold rem getOrder at h0
      rw [hfr'] at h0
      simp at h0
      omega
    · simp only [List.map_cons, List.map_nil, List.mem_singleton] at hr
      have hfo0 : findOrder R.1 o'.id = some { w with remaining := R.2.2.2 } := by
        rw [hr]; exact P3
      rw [hfr'] at hfo0
      cases hfo0
      exact absurd rfl hside
  case bnd =>
    refine P10 ?_
    intro o ho
    rcases List.mem_append.mp ho with hl | hr
    · exact hInv.bnd o hl
    · simp only [List.mem_singleton] at hr
      rw [hr]
      exact Bnd_new _ _ _ _ _ _
  case filledBal =>
    show filledSum R.1 true = filledSum R.1 false
    have hw_side : (w.side == "buy") = true := rfl
    obtain ⟨k1, k2⟩ := P12 hw_side
    rw [k1, k2, filledSum_append, filledSum_append, filledSum_fresh, filledSum_fresh,
      hInv.filledBal]
  case tradeBal =>
    show tradeVolume R.2.1 = filledSum R.1 true
    obtain ⟨new, hnew, hvol, _⟩ := P11
    have hw_side : (w.side == "buy") = true := rfl
    obtain ⟨k1, _⟩ := P12 hw_side
    rw [hnew, tradeVolume_append, hvol, k1, filledSum_append, filledSum_fresh,
      hInv.tradeBal]
    ring

theorem inv_process_sell (s : OrderBook) (hInv : Inv s) (em : String) {sd : String}
    (hsd : sd ≠ "buy") (p q : Int) :
    Inv (process_order s em sd p q).1 := by
  have hP := process_pre_sell s hInv em sd p q
  unfold MLConc at hP
  obtain ⟨P1, P2, P3, P4, P5, P6, P7, P8, P9, P10, P11, P12⟩ := hP
  rw [process_order_sell_def s hsd]
  set w : Order := (⟨s.nextId, em, sd, p, q, q, s.now⟩ : Order) with hwdef
  set R := matchLoop false s.nextId (-p) (s.bids.length + 1) (s.orders ++ [w])
    s.trades s.bids q with hRdef
  show Inv (OrderBook.mk R.1 R.2.1 R.2.2.1
    (if 0 < R.2.2.2 then Entry.mk p s.now s.nextId :: s.asks else s.asks)
    (s.nextId + 1) s.now)
  have hsig : R.1.map sig = (s.orders ++ [w]).map sig := matchLoop_map_sig _ _ _ _ _ _ _ _
  have hids_eq : R.1.map (fun o => o.id) = (s.orders ++ [w]).map (fun o => o.id) :=
    map_id_of_map_sig hsig
  have hidsN_R : (R.1.map (fun o => o.id)).Nodup := by
    rw [hids_eq]; exact ids_append_new hInv rfl
  have hold_frame : ∀ e ∈ s.asks, findOrder R.1 e.oid = findOrder s.orders e.oid := by
    intro e he
    obtain ⟨o, ho, hpos, hc⟩ := hInv.asksLink e he
    simp only [if_true] at hc
    have hne_t : e.oid ≠ s.nextId := Nat.ne_of_lt ((heap_oid_lt hInv).1 e he)
    have hoid : o.id = e.oid := (findOrder_eq_some ho).2
    have hnotin : e.oid ∉ s.bids.map (fun x => x.oid) := by
      have := (oid_side_conflict hInv (hoid ▸ ho)).2 hc.2
      rw [hoid] at this
      exact this
    rw [P7 e.oid hne_t hnotin, findOrder_append_ne hne_t]
  constructor
  case idsN => exact hidsN_R
  case idsLt =>
    intro o ho
    have hmm : o.id ∈ (s.orders ++ [w]).map (fun o => o.id) := by
      rw [← hids_eq]; exact List.mem_map_of_mem _ ho
    rw [List.map_append] at hmm
    rcases List.mem_append.mp hmm with hl | hr
    · obtain ⟨o', ho', heq⟩ := List.mem_map.mp hl
      rw [← heq]
      exact Nat.lt_succ_of_lt (hInv.idsLt o' ho')
    · simp only [List.map_cons, List.map_nil, List.mem_singleton] at hr
      rw [hr]
      exact Nat.lt_succ_self _
  case asksLink =>
    show ∀ e ∈ (if 0 < R.2.2.2 then Entry.mk p s.now s.nextId :: s.asks else s.asks),
      entryLinked true R.1 e
    intro e he
    have hlift : ∀ e ∈ s.asks, entryLinked true R.1 e := by
      intro e' he'
      obtain ⟨o, ho, hpos, hc⟩ := hInv.asksLink e' he'
      exact ⟨o, by rw [hold_frame e' he']; exact ho, hpos, hc⟩
    by_cases hrq : 0 < R.2.2.2
    · rw [if_pos hrq] at he
      rcases List.mem_cons.mp he with rfl | he'
      · exact ⟨{ w with remaining := R.2.2.2 }, P3, hrq, by
          simp only [if_true]
          exact ⟨trivial, hsd⟩⟩
      · exact hlift _ he'
    · rw [if_neg hrq] at he
      exact hlift _ he
  case bidsLink => exact P6
  case asksN =>
    show (((if 0 < R.2.2.2 then Entry.mk p s.now s.nextId :: s.asks else s.asks)).map
      (fun e => e.oid)).Nodup
    by_cases hrq : 0 < R.2.2.2
    · rw [if_pos hrq]
      simp only [List.map_cons, List.nodup_cons]
      refine ⟨?_, hInv.asksN⟩
      intro hx
      obtain ⟨e, he, heq⟩ := List.mem_map.mp hx
      exact absurd ((heap_oid_lt hInv).1 e he) (by rw [heq]; exact lt_irrefl _)
    · rw [if_neg hrq]
      exact hInv.asksN
  case bidsN => exact hInv.bidsN.sublist (P1.map _)
  case asksConv =>
    show ∀ o ∈ R.1, o.side ≠ "buy" → 0 < o.remaining → o.id ∈
      ((if 0 < R.2.2.2 then Entry.mk p s.now s.nextId :: s.asks else s.asks)).map
        (fun e => e.oid)
    intro o' ho' hside hpos
    have hfr' : findOrder R.1 o'.id = some o' := findOrder_of_mem hidsN_R ho'
    have hmm : o'.id ∈ (s.orders ++ [w]).map (fun o => o.id) := by
      rw [← hids_eq]; exact List.mem_map_of_mem _ ho'
    rw [List.map_append] at hmm
    rcases List.mem_append.mp hmm with hl | hr
    · obtain ⟨o, ho, heq⟩ := List.mem_map.mp hl
      have hne_t : o'.id ≠ s.nextId := by rw [← heq]; exact Nat.ne_of_lt (hInv.idsLt o ho)
      have hfo : findOrder s.orders o'.id = some o := by
        rw [← heq]; exact findOrder_of_mem hInv.idsN ho
      have hnotin : o'.id ∉ s.bids.map (fun x => x.oid) := by
        have hfo0 : findOrder (s.orders ++ [w]) o'.id = some o := findOrder_append_left hfo
        obtain ⟨hsg, _⟩ := P2.2 o'.id o o' hfo0 hfr'
        have hsides : o.side = o'.side := (sig_eq_iff.mp hsg).2.2.1.symm
        have := (oid_side_conflict hInv ((findOrder_eq_some hfo).2 ▸ hfo)).2
          (by rw [hsides]; exact hside)
        rw [(findOrder_eq_some hfo).2] at this
        exact this
      have hfr : findOrder R.1 o'.id = findOrder (s.orders ++ [w]) o'.id :=
        P7 o'.id hne_t hnotin
      have hfo' : findOrder s.orders o'.id = some o' := by
        rw [← findOrder_append_ne (show o'.id ≠ w.id from hne_t), ← hfr]
        exact hfr'
      have hin := hInv.asksConv o' (findOrder_eq_some hfo').1 hside hpos
      by_cases hrq : 0 < R.2.2.2
      · rw [if_pos hrq]
        simp only [List.map_cons]
        exact List.mem_cons_of_mem _ hin
      · rw [if_neg hrq]
        exact hin
    · simp only [List.map_cons, List.map_nil, List.mem_singleton] at hr
      have hfo0 : findOrder R.1 o'.id = some { w with remaining := R.2.2.2 } := by
        rw [hr]; exact P3
      rw [hfr'] at hfo0
      cases hfo0
      have hrq : 0 < R.2.2.2 := hpos
      rw [if_pos hrq]
      simp
  case bidsConv =>
    show ∀ o ∈ R.1, o.side = "buy" → 0 < o.remaining → o.id ∈
      R.2.2.1.map (fun e => e.oid)
    intro o' ho' hside hpos
    have hfr' : findOrder R.1 o'.id = some o' := findOrder_of_mem hidsN_R ho'
    have hmm : o'.id ∈ (s.orders ++ [w]).map (fun o => o.id) := by
      rw [← hids_eq]; exact List.mem_map_of_mem _ ho'
    rw [List.map_append] at hmm
    rcases List.mem_append.mp hmm with hl | hr
    · obtain ⟨o, ho, heq⟩ := List.mem_map.mp hl
      have hne_t : o'.id ≠ s.nextId := by rw [← heq]; exact Nat.ne_of_lt (hInv.idsLt o ho)
      have hfo : findOrder s.orders o'.id = some o := by
        rw [← heq]; exact findOrder_of_mem hInv.idsN ho
      have hfo0 : findOrder (s.orders ++ [w]) o'.id = some o := findOrder_append_left hfo
      obtain ⟨hsg, hle⟩ := P2.2 o'.id o o' hfo0 hfr'
      have hsides : o.side = o'.side := (sig_eq_iff.mp hsg).2.2.1.symm
      have hin := hInv.bidsConv o (findOrder_eq_some hfo).1
        (by rw [hsides]; exact hside) (by omega)
      rw [(findOrder_eq_some hfo).2] at hin
      by_contra hnot
      have h0 : rem R.1 o'.id = 0 := P8 o'.id hin hnot
      unfold rem getOrder at h0
      rw [hfr'] at h0
      simp at h0
      omega
    · simp only [List.map_cons, List.map_nil, List.mem_singleton] at hr
      have hfo0 : findOrder R.1 o'.id = some { w with remaining := R.2.2.2 } := by
        rw [hr]; exact P3
      rw [hfr'] at hfo0
      cases hfo0
      exact absurd hside hsd
  case bnd =>
    refine P10 ?_
    intro o ho
    rcases List.mem_append.mp ho with hl | hr
    · exact hInv.bnd o hl
    · simp only [List.mem_singleton] at hr
      rw [hr]
      exact Bnd_new _ _ _ _ _ _
  case filledBal =>
    show filledSum R.1 true = filledSum R.1 false
    have hw_side : (w.side == "buy") = false := beq_eq_false_iff_ne.mpr hsd
    obtain ⟨k1, k2⟩ := P12 hw_side
    rw [k1, k2, filledSum_append, filledSum_append, filledSum_fresh, filledSum_fresh,
      hInv.filledBal]
  case tradeBal =>
    show tradeVolume R.2.1 = filledSum R.1 true
    obtain ⟨new, hnew, hvol, _⟩ := P11
    have hw_side : (w.side == "buy") = false := beq_eq_false_iff_ne.mpr hsd
    obtain ⟨k1, _⟩ := P12 hw_side
    rw [hnew, tradeVolume_append, hvol, k1, filledSum_append, filledSum_fresh,
      hInv.tradeBal]
    ring

theorem inv_process (s : OrderBook) (hInv : Inv s) (em sd : String) (p q : Int) :
    Inv (process_order s em sd p q).1 := by
  by_cases hsd : sd = "buy"
  · subst hsd
    exact inv_process_buy s hInv em p q
  · exact inv_process_sell s hInv em hsd p q

theorem inv_init : Inv init0 := by
  constructor <;> simp [init0, filledSum, tradeVolume]

theorem inv_reload (s : OrderBook) (hInv : Inv s) : Inv (reload_from_db s) := by
  constructor
  case idsN => exact hInv.idsN
  case idsLt => exact hInv.idsLt
  case bnd => exact hInv.bnd
  case filledBal => exact hInv.filledBal
  case tradeBal => exact hInv.tradeBal
  case bidsLink =>
    intro e he
    obtain ⟨o, ho, rfl⟩ := List.mem_map.mp he
    obtain ⟨hmem, hpred⟩ := List.mem_filter.mp ho
    simp only [Bool.and_eq_true, decide_eq_true_eq, beq_iff_eq] at hpred
    exact ⟨o, findOrder_of_mem hInv.idsN hmem, hpred.1, by
      simp only [Bool.false_eq_true, if_false]
      exact ⟨trivial, hpred.2⟩⟩
  case asksLink =>
    intro e he
    obtain ⟨o, ho, rfl⟩ := List.mem_map.mp he
    obtain ⟨hmem, hpred⟩ := List.mem_filter.mp ho
    simp only [Bool.and_eq_true, decide_eq_true_eq, Bool.not_eq_eq_eq_not,
      Bool.not_true, beq_eq_false_iff_ne] at hpred
    exact ⟨o, findOrder_of_mem hInv.idsN hmem, hpred.1, by
      simp only [if_true]
      exact ⟨trivial, hpred.2⟩⟩
  case bidsN =>
    show (((s.orders.filter
        (fun o => decide (0 < o.remaining) && (o.side == "buy"))).map
        (fun o => (⟨-o.price, o.timestamp, o.id⟩ : Entry))).map
        (fun e => e.oid)).Nodup
    rw [List.map_map]
    have : ((fun e : Entry => e.oid) ∘ fun o : Order => (⟨-o.price, o.timestamp, o.id⟩ : Entry))
        = fun o : Order => o.id := rfl
    rw [this]
    exact hInv.idsN.sublist ((List.filter_sublist _).map _)
  case asksN =>
    show (((s.orders.filter
        (fun o => decide (0 < o.remaining) && !(o.side == "buy"))).map
        (fun o => (⟨o.price, o.timestamp, o.id⟩ : Entry))).map
        (fun e => e.oid)).Nodup
    rw [List.map_map]
    have : ((fun e : Entry => e.oid) ∘ fun o : Order => (⟨o.price, o.timestamp, o.id⟩ : Entry))
        = fun o : Order => o.id := rfl
    rw [this]
    exact hInv.idsN.sublist ((List.filter_sublist _).map _)
  case bidsConv =>
    intro o ho hside hpos
    refine List.mem_map.mpr ⟨⟨-o.price, o.timestamp, o.id⟩, ?_, rfl⟩
    refine List.mem_map.mpr ⟨o, ?_, rfl⟩
    refine List.mem_filter.mpr ⟨ho, ?_⟩
    simp [hside, hpos]
  case asksConv =>
    intro o ho hside hpos
    refine List.mem_map.mpr ⟨⟨o.price, o.timestamp, o.id⟩, ?_, rfl⟩
    refine List.mem_map.mpr ⟨o, ?_, rfl⟩
    refine List.mem_filter.mpr ⟨ho, ?_⟩
    simp [hside, hpos]

theorem inv_tick (s : OrderBook) (hInv : Inv s) (k : Nat) : Inv (tick s k) :=
  ⟨hInv.idsN, hInv.idsLt, hInv.bidsLink, hInv.asksLink, hInv.bidsN, hInv.asksN,
   hInv.bidsConv, hInv.asksConv, hInv.bnd, hInv.filledBal, hInv.tradeBal⟩

/-- Every reachable state satisfies the invariant. -/
theorem inv_reachable {s : OrderBook} (hs : Reachable s) : Inv s := by
  induction hs with
  | init => exact inv_init
  | step s' k em sd p q _ ih => exact inv_process _ (inv_tick s' ih k) em sd p q
  | reload s' _ ih => exact inv_reload s' ih

/-! ### Example states are reachable -/

theorem demo1_reachable : Reachable demo1 :=
  Reachable.step init0 0 "alice" "sell" 40 5 Reachable.init

theorem demo2_reachable : Reachable demo2 :=
  Reachable.step demo1 1 "bob" "sell" 50 5 demo1_reachable

theorem demo3_reachable : Reachable demo3 :=
  Reachable.step demo2 1 "carol" "buy" 60 12 demo2_reachable

/-- The signature-preservation of `process_order`: each call appends exactly
one row, whose immutable columns carry the submitted values, and returns
`True`. -/
theorem process_order_map_sig (s : OrderBook) (em sd : String) (p q : Int) :
    ((process_order s em sd p q).1).orders.map sig
        = (s.orders ++ [(⟨s.nextId, em, sd, p, q, q, s.now⟩ : Order)]).map sig ∧
      (process_order s em sd p q).2 = true := by
  by_cases hsd : sd = "buy"
  · subst hsd
    rw [process_order_buy_def]
    exact ⟨matchLoop_map_sig _ _ _ _ _ _ _ _, rfl⟩
  · rw [process_order_sell_def s hsd]
    exact ⟨matchLoop_map_sig _ _ _ _ _ _ _ _, rfl⟩

/-! ### The claims -/

/-- C6: reconstructing the in-memory book from the persisted orders twice in
a row (with unchanged persisted contents — `reload_from_db` itself never
writes the tables) produces exactly the same state, and in particular the
same aggregate level snapshot, as reconstructing once: replay is idempotent. -/
theorem c6_replay_idempotent (s : OrderBook) :
    reload_from_db (reload_from_db s) = reload_from_db s ∧
    get_book (reload_from_db (reload_from_db s)) = get_book (reload_from_db s) :=
  ⟨rfl, rfl⟩

/-- C3 counterexample: a submission whose price 500 is far outside [0,100]
is not rejected — an `Order` row is created and the book mutates (the order
rests as a bid), refuting validation-before-mutation. -/
theorem c3_counterexample :
    ¬ ((500 : Int) ≤ 100) ∧
    ((process_order init0 "u" "buy" 500 3).1).orders
      = [⟨0, "u", "buy", 500, 3, 3, 0⟩] ∧
    ((process_order init0 "u" "buy" 500 3).1).bids = [⟨-500, 0, 0⟩] := by
  refine ⟨by omega, rfl, rfl⟩

/-- C3 amended: the code performs no validation whatsoever — every
submission, regardless of price range, quantity sign, or side string,
creates exactly one new `Order` row carrying the submitted values verbatim
and reports success to the caller. -/
theorem c3_no_validation (s : OrderBook) (em sd : String) (p q : Int) :
    (∃ o ∈ ((process_order s em sd p q).1).orders,
      o.id = s.nextId ∧ o.user_email = em ∧ o.side = sd ∧ o.price = p ∧
        o.quantity = q) ∧
    ((process_order s em sd p q).1).orders.length = s.orders.length + 1 ∧
    (process_order s em sd p q).2 = true := by
  obtain ⟨hsig, hret⟩ := process_order_map_sig s em sd p q
  refine ⟨?_, ?_, hret⟩
  · have hw : sig (⟨s.nextId, em, sd, p, q, q, s.now⟩ : Order)
        ∈ ((process_order s em sd p q).1).orders.map sig := by
      rw [hsig, List.map_append]
      exact List.mem_append_right _ (by simp)
    obtain ⟨o, ho, hos⟩ := List.mem_map.mp hw
    obtain ⟨h1, h2, h3, h4, h5, _⟩ := sig_eq_iff.mp hos
    exact ⟨o, ho, h1, h2, h3, h4, h5⟩
  · have := congrArg List.length hsig
    simpa using this

/-- C4 counterexample: a submission with negative quantity creates an order
whose remaining quantity is negative from the start, refuting the
unconditional invariant. -/
theorem c4_counterexample :
    ∃ o ∈ ((process_order init0 "u" "buy" 50 (-5)).1).orders, o.remaining < 0 := by
  decide

/-- C4 amended: after any sequence of submissions and reloads, every order
row created with positive quantity satisfies 0 ≤ remaining ≤ quantity at
all times, and rows created with non-positive quantity are never touched by
matching (their remaining stays equal to the submitted quantity). -/
theorem c4_remaining_bounds (s : OrderBook) (hs : Reachable s) :
    ∀ o ∈ s.orders,
      (0 < o.quantity → 0 ≤ o.remaining ∧ o.remaining ≤ o.quantity) ∧
      (o.quantity ≤ 0 → o.remaining = o.quantity) := by
  intro o ho
  have hb := (inv_reachable hs).bnd o ho
  unfold Bnd at hb
  exact ⟨fun h => ⟨hb.2.1 h, hb.1⟩, hb.2.2⟩

theorem c4_witness :
    (⟨2, "carol", "buy", 60, 12, 2, 2⟩ : Order) ∈ demo3.orders ∧
    ((0 < (⟨2, "carol", "buy", 60, 12, 2, 2⟩ : Order).quantity →
        0 ≤ (⟨2, "carol", "buy", 60, 12, 2, 2⟩ : Order).remaining ∧
        (⟨2, "carol", "buy", 60, 12, 2, 2⟩ : Order).remaining
          ≤ (⟨2, "carol", "buy", 60, 12, 2, 2⟩ : Order).quantity) ∧
      ((⟨2, "carol", "buy", 60, 12, 2, 2⟩ : Order).quantity ≤ 0 →
        (⟨2, "carol", "buy", 60, 12, 2, 2⟩ : Order).remaining
          = (⟨2, "carol", "buy", 60, 12, 2, 2⟩ : Order).quantity)) :=
  ⟨by decide, c4_remaining_bounds demo3 demo3_reachable _ (by decide)⟩

/-- C5 counterexample: `process_order` returns the constant Boolean `True`,
not the unfilled residue with the trades: two submissions leaving different
residues (5 and 7), each emitting no trade, both return the same value
`true`, so the return value carries neither residue nor trades. -/
theorem c5_counterexample :
    (process_order init0 "u" "buy" 50 5).2 = true ∧
    (process_order init0 "v" "sell" 70 7).2 = true ∧
    rem ((process_order init0 "u" "buy" 50 5).1).orders 0 = 5 ∧
    rem ((process_order init0 "v" "sell" 70 7).1).orders 0 = 7 ∧
    ((process_order init0 "u" "buy" 50 5).1).trades = [] := by
  exact ⟨rfl, rfl, rfl, rfl, rfl⟩

/-- C5 amended: `process_order` returns `True` unconditionally; the
unfilled residue is recorded in the database as the new order's remaining —
equal to the submitted quantity minus the total quantity of the trades the
call emitted — and those trades are appended to the persisted trade table
rather than returned. -/
theorem c5_returns_true (s : OrderBook) (hs : Reachable s) (em sd : String)
    (p q : Int) :
    (process_order s em sd p q).2 = true ∧
    ∃ ro, findOrder ((process_order s em sd p q).1).orders s.nextId = some ro ∧
      ∃ new, ((process_order s em sd p q).1).trades = s.trades ++ new ∧
        ro.remaining = q - tradeVolume new := by
  have hInv := inv_reachable hs
  by_cases hsd : sd = "buy"
  · subst hsd
    have hP := process_pre_buy s hInv em p q
    unfold MLConc at hP
    obtain ⟨_, _, P3, _, _, _, _, _, _, _, P11, _⟩ := hP
    obtain ⟨new, hnew, hvol, _⟩ := P11
    rw [process_order_buy_def]
    refine ⟨rfl, _, P3, new, hnew, ?_⟩
    show (matchLoop true s.nextId p (s.asks.length + 1)
      (s.orders ++ [⟨s.nextId, em, "buy", p, q, q, s.now⟩])
      s.trades s.asks q).2.2.2 = q - tradeVolume new
    omega
  · have hP := process_pre_sell s hInv em sd p q
    unfold MLConc at hP
    obtain ⟨_, _, P3, _, _, _, _, _, _, _, P11, _⟩ := hP
    obtain ⟨new, hnew, hvol, _⟩ := P11
    rw [process_order_sell_def s hsd]
    refine ⟨rfl, _, P3, new, hnew, ?_⟩
    show (matchLoop false s.nextId (-p) (s.bids.length + 1)
      (s.orders ++ [⟨s.nextId, em, sd, p, q, q, s.now⟩])
      s.trades s.bids q).2.2.2 = q - tradeVolume new
    omega

theorem c5_witness :
    (process_order demo2 "carol" "buy" 60 12).2 = true ∧
    ∃ ro, findOrder ((process_order demo2 "carol" "buy" 60 12).1).orders
        demo2.nextId = some ro ∧
      ∃ new, ((process_order demo2 "carol" "buy" 60 12).1).trades
          = demo2.trades ++ new ∧
        ro.remaining = 12 - tradeVolume new :=
  c5_returns_true demo2 demo2_reachable "carol" "buy" 60 12

/-- C8: conservation.  In every reachable state the ledger is balanced:
the total quantity filled from buy-side orders equals the total filled from
sell-side orders, and both equal the total quantity of the recorded trades
(each trade binds its one quantity to a buyer and a seller symmetrically). -/
theorem c8_conservation (s : OrderBook) (hs : Reachable s) :
    filledSum s.orders true = filledSum s.orders false ∧
    tradeVolume s.trades = filledSum s.orders true := by
  have hInv := inv_reachable hs
  exact ⟨hInv.filledBal, hInv.tradeBal⟩

theorem c8_witness :
    filledSum demo3.orders true = filledSum demo3.orders false ∧
    tradeVolume demo3.trades = filledSum demo3.orders true :=
  c8_conservation demo3 demo3_reachable

/-- C2: every trade emitted by a `process_order` call from a reachable state
executes at the resting (maker) order's limit price, and that price lies
within both counterparties' limits: the maker was active with enough
remaining when matched, and for a buy (resp. non-buy) submission the
maker's price is at most (resp. at least) the incoming limit price, the
incoming order being the other counterparty at exactly that price. -/
theorem c2_trade_price_within_limits (s : OrderBook) (hs : Reachable s)
    (em sd : String) (p q : Int) :
    ∃ new, ((process_order s em sd p q).1).trades = s.trades ++ new ∧
      ∀ t ∈ new, ∃ maker, maker ∈ s.orders ∧ 0 < maker.remaining ∧
        t.price = maker.price ∧ 0 < t.quantity ∧ t.quantity ≤ maker.remaining ∧
        (if sd = "buy"
         then maker.price ≤ p ∧ t.buyer_email = em ∧
           t.seller_email = maker.user_email ∧ maker.side ≠ "buy"
         else p ≤ maker.price ∧ t.buyer_email = maker.user_email ∧
           t.seller_email = em ∧ maker.side = "buy") := by
  have hInv := inv_reachable hs
  by_cases hsd : sd = "buy"
  · subst hsd
    have hP := process_pre_buy s hInv em p q
    unfold MLConc at hP
    obtain ⟨_, _, _, _, _, _, _, _, _, _, P11, _⟩ := hP
    obtain ⟨new, hnew, _, hpay⟩ := P11
    rw [process_order_buy_def]
    refine ⟨new, hnew, ?_⟩
    intro t ht
    obtain ⟨hpos, e, he, o, hoe, hop, hqt, hpl, hpr, hem⟩ := hpay t ht
    obtain ⟨o₂, ho₂, _, hc⟩ := hInv.asksLink e he
    simp only [if_true] at hc hem
    have hne_t : e.oid ≠ s.nextId := Nat.ne_of_lt ((heap_oid_lt hInv).1 e he)
    rw [findOrder_append_ne hne_t, ho₂] at hoe
    cases hoe
    refine ⟨o, (findOrder_eq_some ho₂).1, hop, hpr, hpos, hqt, ?_⟩
    rw [if_pos rfl]
    exact ⟨hc.1 ▸ hpl, hem.1, hem.2, hc.2⟩
  · have hP := process_pre_sell s hInv em sd p q
    unfold MLConc at hP
    obtain ⟨_, _, _, _, _, _, _, _, _, _, P11, _⟩ := hP
    obtain ⟨new, hnew, _, hpay⟩ := P11
    rw [process_order_sell_def s hsd]
    refine ⟨new, hnew, ?_⟩
    intro t ht
    obtain ⟨hpos, e, he, o, hoe, hop, hqt, hpl, hpr, hem⟩ := hpay t ht
    obtain ⟨o₂, ho₂, _, hc⟩ := hInv.bidsLink e he
    simp only [Bool.false_eq_true, if_false] at hc hem
    have hne_t : e.oid ≠ s.nextId := Nat.ne_of_lt ((heap_oid_lt hInv).2 e he)
    rw [findOrder_append_ne hne_t, ho₂] at hoe
    cases hoe
    refine ⟨o, (findOrder_eq_some ho₂).1, hop, hpr, hpos, hqt, ?_⟩
    rw [if_neg hsd]
    refine ⟨?_, hem.1, hem.2, hc.2⟩
    have := hc.1 ▸ hpl
    omega

theorem c2_witness :
    ∃ new, ((process_order demo2 "carol" "buy" 60 12).1).trades
        = demo2.trades ++ new ∧
      ∀ t ∈ new, ∃ maker, maker ∈ demo2.orders ∧ 0 < maker.remaining ∧
        t.price = maker.price ∧ 0 < t.quantity ∧ t.quantity ≤ maker.remaining ∧
        (if "buy" = "buy"
         then maker.price ≤ 60 ∧ t.buyer_email = "carol" ∧
           t.seller_email = maker.user_email ∧ maker.side ≠ "buy"
         else 60 ≤ maker.price ∧ t.buyer_email = maker.user_email ∧
           t.seller_email = "carol" ∧ maker.side = "buy") :=
  c2_trade_price_within_limits demo2 demo2_reachable "carol" "buy" 60 12

/-- C1: strict price-time priority.  For a submission processed from a
reachable state, take any two resting entries `a`, `b` on the side the
incoming order matches against (the asks for a buy, the bids otherwise).
If `a` beats `b` in the heap's key order — strictly better price first,
then earlier timestamp, then lower id for equal timestamps — and the call
consumed any quantity from `b`'s order, then `a`'s order was fully
consumed first: no better-priced resting order, and no earlier order at an
equally good price, is ever skipped in favor of `b`. -/
theorem c1_price_time_priority (s : OrderBook) (hs : Reachable s)
    (em sd : String) (p q : Int) (a b : Entry)
    (hab : if sd = "buy" then a ∈ s.asks ∧ b ∈ s.asks
           else a ∈ s.bids ∧ b ∈ s.bids)
    (hlt : entryKeyLt a b)
    (htouch : rem ((process_order s em sd p q).1).orders b.oid
      < rem s.orders b.oid) :
    rem ((process_order s em sd p q).1).orders a.oid = 0 := by
  have hInv := inv_reachable hs
  by_cases hsd : sd = "buy"
  · subst hsd
    rw [if_pos rfl] at hab
    have hP := process_pre_buy s hInv em p q
    unfold MLConc at hP
    obtain ⟨_, _, _, _, _, _, _, _, P9, _, _, _⟩ := hP
    rw [process_order_buy_def] at htouch ⊢
    have hne_t : b.oid ≠ s.nextId := Nat.ne_of_lt ((heap_oid_lt hInv).1 b hab.2)
    have heq : rem (s.orders ++ [(⟨s.nextId, em, "buy", p, q, q, s.now⟩ : Order)])
        b.oid = rem s.orders b.oid := by
      unfold rem getOrder
      rw [findOrder_append_ne hne_t]
    exact P9 a hab.1 b hab.2 hlt (by rw [heq]; exact htouch)
  · rw [if_neg hsd] at hab
    have hP := process_pre_sell s hInv em sd p q
    unfold MLConc at hP
    obtain ⟨_, _, _, _, _, _, _, _, P9, _, _, _⟩ := hP
    rw [process_order_sell_def s hsd] at htouch ⊢
    have hne_t : b.oid ≠ s.nextId := Nat.ne_of_lt ((heap_oid_lt hInv).2 b hab.2)
    have heq : rem (s.orders ++ [(⟨s.nextId, em, sd, p, q, q, s.now⟩ : Order)])
        b.oid = rem s.orders b.oid := by
      unfold rem getOrder
      rw [findOrder_append_ne hne_t]
    exact P9 a hab.1 b hab.2 hlt (by rw [heq]; exact htouch)

theorem c1_witness :
    rem ((process_order demo2 "carol" "buy" 60 12).1).orders 0 = 0 :=
  c1_price_time_priority demo2 demo2_reachable "carol" "buy" 60 12
    ⟨40, 0, 0⟩ ⟨50, 1, 1⟩ (by decide) (by decide) (by decide)

/-! ### Level aggregation (C7) -/

theorem levels_core (tb : Bool) (os : List Order) (h : List Entry)
    (hids : (os.map (fun o => o.id)).Nodup)
    (hlink : ∀ e ∈ h, entryLinked tb os e)
    (hoids : (h.map (fun e => e.oid)).Nodup)
    (hconv : ∀ o ∈ os, ((o.side == "buy") = !tb) → 0 < o.remaining →
      o.id ∈ h.map (fun e => e.oid)) :
    (∀ p : Int, levelQty os h p
      = ((activeAt os (!tb) p).map (fun o => o.remaining)).sum) ∧
    (∀ p ∈ levelPrices os h, 0 < levelQty os h p) ∧
    (∀ o ∈ os, ((o.side == "buy") = !tb) → 0 < o.remaining →
      o.price ∈ levelPrices os h) := by
  have hside_of_link : ∀ e ∈ h, ∀ o, findOrder os e.oid = some o →
      0 < o.remaining ∧ ((o.side == "buy") = !tb) := by
    intro e he o ho
    obtain ⟨o₂, ho₂, hop, hc⟩ := hlink e he
    rw [ho₂] at ho
    cases ho
    refine ⟨hop, ?_⟩
    cases tb
    · simp only [Bool.false_eq_true, if_false] at hc
      simp [hc.2]
    · simp only [if_true] at hc
      simp [beq_eq_false_iff_ne, hc.2]
  refine ⟨?_, ?_, ?_⟩
  · intro p
    have hperm : List.Perm
        ((h.filter (fun e => (getOrder os e.oid).price == p)).map (fun e => e.oid))
        ((activeAt os (!tb) p).map (fun o => o.id)) := by
      refine List.perm_of_nodup_nodup_toFinset_eq
        (hoids.sublist ((List.filter_sublist _).map _))
        (hids.sublist ((List.filter_sublist _).map _)) ?_
      ext j
      simp only [List.mem_toFinset, List.mem_map]
      constructor
      · rintro ⟨e, he, rfl⟩
        obtain ⟨he_h, hprice⟩ := List.mem_filter.mp he
        obtain ⟨o, ho, hop, hc⟩ := hlink e he_h
        have hside := (hside_of_link e he_h o ho).2
        have hgo : getOrder os e.oid = o := by simp [getOrder, ho]
        rw [hgo] at hprice
        refine ⟨o, List.mem_filter.mpr ⟨(findOrder_eq_some ho).1, ?_⟩,
          (findOrder_eq_some ho).2⟩
        simp only [Bool.and_eq_true, decide_eq_true_eq]
        refine ⟨⟨?_, hop⟩, hprice⟩
        rw [hside]
        simp
      · rintro ⟨o, ho_a, rfl⟩
        obtain ⟨ho_os, hpred⟩ := List.mem_filter.mp ho_a
        simp only [Bool.and_eq_true, decide_eq_true_eq] at hpred
        have hbeq : (o.side == "buy") = !tb := by
          have := hpred.1.1
          cases hsb : (o.side == "buy") <;> cases htb : tb <;> simp_all
        obtain ⟨e, he, heq⟩ := List.mem_map.mp (hconv o ho_os hbeq hpred.1.2)
        refine ⟨e, List.mem_filter.mpr ⟨he, ?_⟩, heq⟩
        have hfo : findOrder os e.oid = some o := by
          rw [heq]
          exact findOrder_of_mem hids ho_os
        have hgo : getOrder os e.oid = o := by simp [getOrder, hfo]
        rw [hgo]
        exact hpred.2
    have hL : levelQty os h p
        = (((h.filter (fun e => (getOrder os e.oid).price == p)).map
            (fun e => e.oid)).map (rem os)).sum := by
      unfold levelQty
      rw [List.map_map]
      rfl
    have hR : ((activeAt os (!tb) p).map (fun o => o.remaining)).sum
        = (((activeAt os (!tb) p).map (fun o => o.id)).map (rem os)).sum := by
      rw [List.map_map]
      congr 1
      refine List.map_congr_left ?_
      intro o ho_a
      have ho_os : o ∈ os := (List.filter_sublist _).subset ho_a
      show o.remaining = rem os o.id
      unfold rem getOrder
      rw [findOrder_of_mem hids ho_os]
      rfl
    rw [hL, hR]
    exact (hperm.map (rem os)).sum_eq
  · intro p hp
    obtain ⟨e, he, hpe⟩ := List.mem_map.mp (List.mem_dedup.mp hp)
    have he_f : e ∈ h.filter (fun e => (getOrder os e.oid).price == p) :=
      List.mem_filter.mpr ⟨he, by rw [hpe]; exact beq_self_eq_true _⟩
    unfold levelQty
    refine List.sum_pos _ ?_ ?_
    · intro x hx
      obtain ⟨e', he', rfl⟩ := List.mem_map.mp hx
      have he'_h : e' ∈ h := (List.filter_sublist _).subset he'
      obtain ⟨o, ho, hop, _⟩ := hlink e' he'_h
      have hgo : getOrder os e'.oid = o := by simp [getOrder, ho]
      rw [hgo]
      exact hop
    · intro hnil
      rw [List.map_eq_nil_iff] at hnil
      rw [hnil] at he_f
      simp at he_f
  · intro o ho hbeq hpos
    obtain ⟨e, he, heq⟩ := List.mem_map.mp (hconv o ho hbeq hpos)
    have hfo : findOrder os e.oid = some o := by
      rw [heq]
      exact findOrder_of_mem hids ho
    have hgo : getOrder os e.oid = o := by simp [getOrder, hfo]
    unfold levelPrices
    rw [List.mem_dedup]
    exact List.mem_map.mpr ⟨e, he, by rw [hgo]⟩

theorem get_levels_map_fst (os : List Order) (h : List Entry) (isBuy : Bool) :
    (get_levels os h isBuy).map Prod.fst
      = (if isBuy
         then (List.insertionSort (fun a b => a ≤ b) (levelPrices os h)).reverse
         else List.insertionSort (fun a b => a ≤ b) (levelPrices os h)) := by
  have hcomp : (Prod.fst ∘ fun p : Int => (p, levelQty os h p)) = fun p => p := rfl
  unfold get_levels
  cases isBuy <;>
    simp only [List.map_map, hcomp, List.map_id', if_true, Bool.false_eq_true, if_false]

theorem sorted_levels (os : List Order) (h : List Entry) :
    List.Sorted (· > ·) ((get_levels os h true).map Prod.fst) ∧
    List.Sorted (· < ·) ((get_levels os h false).map Prod.fst) := by
  have hnd : (levelPrices os h).Nodup := List.nodup_dedup _
  have hsorted : List.Sorted (· ≤ ·)
      (List.insertionSort (fun a b => a ≤ b) (levelPrices os h)) :=
    List.sorted_insertionSort _ _
  have hnd' : (List.insertionSort (fun a b => a ≤ b) (levelPrices os h)).Nodup :=
    ((List.perm_insertionSort _ _).symm).nodup hnd
  have hstrict : List.Sorted (· < ·)
      (List.insertionSort (fun a b => a ≤ b) (levelPrices os h)) :=
    (hsorted.and hnd').imp fun x => lt_of_le_of_ne x.1 x.2
  constructor
  · rw [get_levels_map_fst]
    simp only [if_true]
    exact List.pairwise_reverse.mpr hstrict
  · rw [get_levels_map_fst]
    simp only [Bool.false_eq_true, if_false]
    exact hstrict

theorem mem_get_levels {os : List Order} {h : List Entry} {isBuy : Bool}
    {pq : Int × Int} (hpq : pq ∈ get_levels os h isBuy) :
    pq.1 ∈ levelPrices os h ∧ pq.2 = levelQty os h pq.1 := by
  unfold get_levels at hpq
  cases isBuy
  · simp only [Bool.false_eq_true, if_false] at hpq
    obtain ⟨p, hp, rfl⟩ := List.mem_map.mp hpq
    exact ⟨(List.perm_insertionSort _ _).subset hp, rfl⟩
  · simp only [if_true] at hpq
    obtain ⟨p, hp, rfl⟩ := List.mem_map.mp hpq
    rw [List.mem_reverse] at hp
    exact ⟨(List.perm_insertionSort _ _).subset hp, rfl⟩

theorem price_mem_get_levels {os : List Order} {h : List Entry} {p : Int}
    (isBuy : Bool) (hp : p ∈ levelPrices os h) :
    p ∈ (get_levels os h isBuy).map Prod.fst := by
  rw [get_levels_map_fst]
  cases isBuy
  · simp only [Bool.false_eq_true, if_false]
    exact (List.perm_insertionSort _ _).symm.subset hp
  · simp only [if_true]
    rw [List.mem_reverse]
    exact (List.perm_insertionSort _ _).symm.subset hp

/-- C7: the `/api/book` level snapshot of a reachable state.  Bid levels
are sorted strictly price-descending and ask levels strictly
price-ascending; every level aggregates exactly the remaining quantities of
the active (remaining > 0) orders of its side at its price and is strictly
positive (no level derived from zero-remaining entries appears — reachable
heaps contain none); and every active order contributes a level at its
price.  In the embedding `get_levels`/`get_book` are plain functions of the
state, so the read performs no mutation by construction. -/
theorem c7_levels (s : OrderBook) (hs : Reachable s) :
    List.Sorted (· > ·) ((get_levels s.orders s.bids true).map Prod.fst) ∧
    List.Sorted (· < ·) ((get_levels s.orders s.asks false).map Prod.fst) ∧
    (∀ pq ∈ get_levels s.orders s.bids true,
      pq.2 = ((activeAt s.orders true pq.1).map (fun o => o.remaining)).sum ∧
        0 < pq.2) ∧
    (∀ pq ∈ get_levels s.orders s.asks false,
      pq.2 = ((activeAt s.orders false pq.1).map (fun o => o.remaining)).sum ∧
        0 < pq.2) ∧
    (∀ o ∈ s.orders, o.side = "buy" → 0 < o.remaining →
      o.price ∈ (get_levels s.orders s.bids true).map Prod.fst) ∧
    (∀ o ∈ s.orders, o.side ≠ "buy" → 0 < o.remaining →
      o.price ∈ (get_levels s.orders s.asks false).map Prod.fst) := by
  have hInv := inv_reachable hs
  have hbids := levels_core false s.orders s.bids hInv.idsN hInv.bidsLink hInv.bidsN
    (by intro o ho hb hp; exact hInv.bidsConv o ho (by simpa using hb) hp)
  have hasks := levels_core true s.orders s.asks hInv.idsN hInv.asksLink hInv.asksN
    (by intro o ho hb hp
        exact hInv.asksConv o ho (by simpa [beq_eq_false_iff_ne] using hb) hp)
  refine ⟨(sorted_levels _ _).1, (sorted_levels _ _).2, ?_, ?_, ?_, ?_⟩
  · intro pq hpq
    obtain ⟨hp, hq⟩ := mem_get_levels hpq
    exact ⟨by rw [hq]; exact hbids.1 pq.1, by rw [hq]; exact hbids.2.1 pq.1 hp⟩
  · intro pq hpq
    obtain ⟨hp, hq⟩ := mem_get_levels hpq
    exact ⟨by rw [hq]; exact hasks.1 pq.1, by rw [hq]; exact hasks.2.1 pq.1 hp⟩
  · intro o ho hside hpos
    exact price_mem_get_levels true (hbids.2.2 o ho (by simp [hside]) hpos)
  · intro o ho hside hpos
    exact price_mem_get_levels false
      (hasks.2.2 o ho (by simp [beq_eq_false_iff_ne, hside]) hpos)

theorem c7_witness :
    List.Sorted (· > ·) ((get_levels demo3.orders demo3.bids true).map Prod.fst) ∧
    List.Sorted (· < ·) ((get_levels demo3.orders demo3.asks false).map Prod.fst) ∧
    (∀ pq ∈ get_levels demo3.orders demo3.bids true,
      pq.2 = ((activeAt demo3.orders true pq.1).map (fun o => o.remaining)).sum ∧
        0 < pq.2) ∧
    (∀ pq ∈ get_levels demo3.orders demo3.asks false,
      pq.2 = ((activeAt demo3.orders false pq.1).map (fun o => o.remaining)).sum ∧
        0 < pq.2) ∧
    (∀ o ∈ demo3.orders, o.side = "buy" → 0 < o.remaining →
      o.price ∈ (get_levels demo3.orders demo3.bids true).map Prod.fst) ∧
    (∀ o ∈ demo3.orders, o.side ≠ "buy" → 0 < o.remaining →
      o.price ∈ (get_levels demo3.orders demo3.asks false).map Prod.fst) :=
  c7_levels demo3 demo3_reachable

/-! ### The `side` column is matched by nothing but the branch test (C9) -/

theorem getOrder_setSide_remaining (os : List Order) (i : Nat) (sd : String) (j : Nat) :
    (getOrder (setSide os i sd) j).remaining = (getOrder os j).remaining := by
  unfold getOrder setSide
  rw [@findOrder_mapOrder os i (fun o => { o with side := sd }) (fun o => rfl) j]
  cases findOrder os j with
  | none => rfl
  | some o =>
    by_cases h : o.id = i
    · simp [h]
    · simp [h]

theorem getOrder_setSide_email (os : List Order) (i : Nat) (sd : String) (j : Nat) :
    (getOrder (setSide os i sd) j).user_email = (getOrder os j).user_email := by
  unfold getOrder setSide
  rw [@findOrder_mapOrder os i (fun o => { o with side := sd }) (fun o => rfl) j]
  cases findOrder os j with
  | none => rfl
  | some o =>
    by_cases h : o.id = i
    · simp [h]
    · simp [h]

theorem decRemaining_setSide (os : List Order) (x : Nat) (q : Int) (i : Nat)
    (sd : String) :
    decRemaining (setSide os i sd) x q = setSide (decRemaining os x q) i sd := by
  unfold decRemaining setSide mapOrder
  rw [List.map_map, List.map_map]
  congr 1
  funext o
  by_cases h1 : o.id = x <;> by_cases h2 : o.id = i
  · have hxi : x = i := h1.symm.trans h2
    subst hxi
    simp [Function.comp, h1, h2]
  · have hxi : x ≠ i := fun hx => h2 (h1.trans hx)
    simp [Function.comp, h1, h2, hxi]
  · have hxi : i ≠ x := fun hx => h1 (h2.trans hx)
    simp [Function.comp, h1, h2, hxi]
  · simp [Function.comp, h1, h2]

theorem record_trade_setSide (os : List Order) (tr : List Trade) (x y : Nat)
    (p q : Int) (i : Nat) (sd : String) :
    record_trade (setSide os i sd) tr x y p q
      = (setSide (record_trade os tr x y p q).1 i sd,
         (record_trade os tr x y p q).2) := by
  unfold record_trade
  rw [decRemaining_setSide, decRemaining_setSide, getOrder_setSide_email,
    getOrder_setSide_email]

theorem matchLoop_setSide (tb : Bool) (taker : Nat) (lim : Int) :
    ∀ (fuel : Nat) (os : List Order) (tr : List Trade) (h : List Entry) (rq : Int)
      (i : Nat) (sd : String),
      matchLoop tb taker lim fuel (setSide os i sd) tr h rq
        = (setSide (matchLoop tb taker lim fuel os tr h rq).1 i sd,
           (matchLoop tb taker lim fuel os tr h rq).2) := by
  intro fuel
  induction fuel with
  | zero => intro os tr h rq i sd; rfl
  | succ n ih =>
    intro os tr h rq i sd
    cases hh : heapMin h with
    | none => rw [matchLoop_succ_none hh, matchLoop_succ_none hh]
    | some m =>
      by_cases hg : m.pkey ≤ lim ∧ 0 < rq
      · have hrem := getOrder_setSide_remaining os i sd m.oid
        by_cases ht : (getOrder os m.oid).remaining ≤ 0
        · rw [matchLoop_succ_tomb hh hg (by rw [hrem]; exact ht),
            matchLoop_succ_tomb hh hg ht]
          exact ih os tr (popMin h) rq i sd
        · rw [matchLoop_succ_trade hh hg (by rw [hrem]; exact ht),
            matchLoop_succ_trade hh hg ht]
          cases tb
          · simp only [Bool.false_eq_true, if_false, getOrder_setSide_remaining,
              record_trade_setSide]
            rw [ih]
          · simp only [if_true, getOrder_setSide_remaining, record_trade_setSide]
            rw [ih]
      · rw [matchLoop_succ_exit hh hg, matchLoop_succ_exit hh hg]

theorem setSide_append (os : List Order) (w : Order) (i : Nat) (sd : String) :
    setSide (os ++ [w]) i sd = setSide os i sd ++ setSide [w] i sd := by
  unfold setSide mapOrder
  rw [List.map_append]

/-- C9: any submitted side other than exactly "buy" — including strings
like "BUY" or "hold" — takes the sell path: it matches against the resting
bids and rests any residue as an ask, producing exactly the state of an
identical side-"sell" submission except that the stored order row records
the submitted side string verbatim; the returned value is the same. -/
theorem c9_non_buy_is_sell (s : OrderBook) (hs : Reachable s) (em : String)
    {sd : String} (hsd : sd ≠ "buy") (p q : Int) :
    ((process_order s em sd p q).1).orders
        = setSide ((process_order s em "sell" p q).1).orders s.nextId sd ∧
    ((process_order s em sd p q).1).trades
        = ((process_order s em "sell" p q).1).trades ∧
    ((process_order s em sd p q).1).bids
        = ((process_order s em "sell" p q).1).bids ∧
    ((process_order s em sd p q).1).asks
        = ((process_order s em "sell" p q).1).asks ∧
    (process_order s em sd p q).2 = (process_order s em "sell" p q).2 := by
  have hInv := inv_reachable hs
  have hsell : ("sell" : String) ≠ "buy" := by decide
  have hid_not : s.nextId ∉ s.orders.map (fun o => o.id) := by
    intro hx
    obtain ⟨o, ho, heq⟩ := List.mem_map.mp hx
    exact absurd (hInv.idsLt o ho) (by rw [heq]; exact lt_irrefl _)
  have hos : s.orders ++ [(⟨s.nextId, em, sd, p, q, q, s.now⟩ : Order)]
      = setSide (s.orders ++ [(⟨s.nextId, em, "sell", p, q, q, s.now⟩ : Order)])
          s.nextId sd := by
    rw [setSide_append]
    have h1 : setSide s.orders s.nextId sd = s.orders := mapOrder_of_notmem hid_not
    have h2 : setSide [(⟨s.nextId, em, "sell", p, q, q, s.now⟩ : Order)] s.nextId sd
        = [(⟨s.nextId, em, sd, p, q, q, s.now⟩ : Order)] := by
      unfold setSide mapOrder
      simp
    rw [h1, h2]
  rw [process_order_sell_def s hsd, process_order_sell_def s hsell]
  rw [hos, matchLoop_setSide]
  exact ⟨rfl, rfl, rfl, rfl, rfl⟩

theorem c9_witness :
    ((process_order demo1 "dave" "BUY" 70 2).1).orders
        = setSide ((process_order demo1 "dave" "sell" 70 2).1).orders
            demo1.nextId "BUY" ∧
    ((process_order demo1 "dave" "BUY" 70 2).1).trades
        = ((process_order demo1 "dave" "sell" 70 2).1).trades ∧
    ((process_order demo1 "dave" "BUY" 70 2).1).bids
        = ((process_order demo1 "dave" "sell" 70 2).1).bids ∧
    ((process_order demo1 "dave" "BUY" 70 2).1).asks
        = ((process_order demo1 "dave" "sell" 70 2).1).asks ∧
    (process_order demo1 "dave" "BUY" 70 2).2
        = (process_order demo1 "dave" "sell" 70 2).2 :=
  c9_non_buy_is_sell demo1 demo1_reachable "dave" (by decide) 70 2

/-! ### Determinism of matching (C10) -/

theorem heapTupleCmp_total (a b : Entry) (hne : a.oid ≠ b.oid) :
    (heapTupleCmp a b).isSome = true ∧
    (heapTupleCmp a b = some Ordering.lt ∨ heapTupleCmp a b = some Ordering.gt) := by
  unfold heapTupleCmp
  split_ifs with h1 h2 h3 h4 h5 h6
  · exact ⟨rfl, Or.inl rfl⟩
  · exact ⟨rfl, Or.inr rfl⟩
  · exact ⟨rfl, Or.inl rfl⟩
  · exact ⟨rfl, Or.inr rfl⟩
  · exact ⟨rfl, Or.inl rfl⟩
  · exact ⟨rfl, Or.inr rfl⟩
  · exfalso
    omega

theorem heapMin_perm {h h' : List Entry} (hp : List.Perm h h')
    (hN : (h.map (fun e => e.oid)).Nodup) : heapMin h = heapMin h' := by
  cases hm : heapMin h with
  | none =>
    have h0 : h = [] := heapMin_eq_none.mp hm
    subst h0
    rw [heapMin_eq_none.mpr (hp.symm.eq_nil)]
  | some m =>
    have hmem := heapMin_mem hm
    have hleast := heapMin_least hm
    cases hm' : heapMin h' with
    | none =>
      have h0 : h' = [] := heapMin_eq_none.mp hm'
      subst h0
      exact absurd (hp.subset hmem) (by simp)
    | some m' =>
      have hmem' : m' ∈ h := hp.symm.subset (heapMin_mem hm')
      have hleast' := heapMin_least hm'
      by_cases heq : m = m'
      · rw [heq]
      · rcases entryKeyLt_trichotomy m m' with he | hlt | hlt
        · exact absurd he heq
        · exact absurd hlt (hleast' m (hp.subset hmem))
        · exact absurd hlt (hleast m' hmem')

theorem matchLoop_perm (tb : Bool) (taker : Nat) (lim : Int) :
    ∀ (fuel : Nat) (os : List Order) (tr : List Trade) (h h' : List Entry) (rq : Int),
      List.Perm h h' → (h.map (fun e => e.oid)).Nodup →
      (matchLoop tb taker lim fuel os tr h rq).1
          = (matchLoop tb taker lim fuel os tr h' rq).1 ∧
      (matchLoop tb taker lim fuel os tr h rq).2.1
          = (matchLoop tb taker lim fuel os tr h' rq).2.1 ∧
      List.Perm (matchLoop tb taker lim fuel os tr h rq).2.2.1
          (matchLoop tb taker lim fuel os tr h' rq).2.2.1 ∧
      (matchLoop tb taker lim fuel os tr h rq).2.2.2
          = (matchLoop tb taker lim fuel os tr h' rq).2.2.2 := by
  intro fuel
  induction fuel with
  | zero => intro os tr h h' rq hp hN; exact ⟨rfl, rfl, hp, rfl⟩
  | succ n ih =>
    intro os tr h h' rq hp hN
    have hmin : heapMin h = heapMin h' := heapMin_perm hp hN
    cases hh : heapMin h with
    | none =>
      rw [matchLoop_succ_none hh, matchLoop_succ_none (hmin ▸ hh)]
      exact ⟨rfl, rfl, hp, rfl⟩
    | some m =>
      have hh' : heapMin h' = some m := hmin ▸ hh
      have hpop : List.Perm (popMin h) (popMin h') := by
        rw [popMin_of_heapMin hh, popMin_of_heapMin hh']
        exact hp.erase m
      have hpopN : ((popMin h).map (fun e => e.oid)).Nodup := by
        rw [popMin_of_heapMin hh]
        exact hN.sublist ((List.erase_sublist m h).map _)
      by_cases hg : m.pkey ≤ lim ∧ 0 < rq
      · by_cases ht : (getOrder os m.oid).remaining ≤ 0
        · rw [matchLoop_succ_tomb hh hg ht, matchLoop_succ_tomb hh' hg ht]
          exact ih os tr (popMin h) (popMin h') rq hpop hpopN
        · rw [matchLoop_succ_trade hh hg ht, matchLoop_succ_trade hh' hg ht]
          by_cases hz : (getOrder (if tb then record_trade os tr taker m.oid
              (if tb then m.pkey else -m.pkey) (min rq (getOrder os m.oid).remaining)
            else record_trade os tr m.oid taker
              (if tb then m.pkey else -m.pkey)
              (min rq (getOrder os m.oid).remaining)).1 m.oid).remaining = 0
          · simp only [if_pos hz]
            exact ih _ _ (popMin h) (popMin h') _ hpop hpopN
          · simp only [if_neg hz]
            exact ih _ _ h h' _ hp hN
      · rw [matchLoop_succ_exit hh hg, matchLoop_succ_exit hh' hg]
        exact ⟨rfl, rfl, hp, rfl⟩

theorem get_levels_perm (os : List Order) {h h' : List Entry}
    (hp : List.Perm h h') (b : Bool) :
    get_levels os h b = get_levels os h' b := by
  have hperm : List.Perm (levelPrices os h) (levelPrices os h') := (hp.map _).dedup
  have h1 : List.insertionSort (fun a b : Int => a ≤ b) (levelPrices os h)
      = List.insertionSort (fun a b : Int => a ≤ b) (levelPrices os h') := by
    refine List.eq_of_perm_of_sorted ?_ (List.sorted_insertionSort _ _)
      (List.sorted_insertionSort _ _)
    exact ((List.perm_insertionSort _ _).trans hperm).trans
      (List.perm_insertionSort _ _).symm
  have h2 : (fun p : Int => (p, levelQty os h p))
      = (fun p : Int => (p, levelQty os h' p)) := by
    funext p
    have : levelQty os h p = levelQty os h' p := by
      unfold levelQty
      exact ((hp.filter _).map _).sum_eq
    rw [this]
  unfold get_levels
  rw [h1, h2]

/-- C10: determinism of matching.  First, the full Python comparison of two
heap tuples with distinct embedded order ids always terminates with a
strict verdict at or before the id component — it never reaches the
unorderable order objects.  Second, in every reachable state both heaps
carry pairwise-distinct order ids, so every comparison the engine can make
is defined.  Third, matching is a function of the heap's multiset of
entries only: replacing both heaps by arbitrary permutations (different
internal layouts) leaves the resulting order table, trade table, returned
value and level snapshot identical and permutes the heaps — so two runs of
the same submission sequence against the same state produce the same
trades and the same book. -/
theorem c10_determinism :
    (∀ a b : Entry, a.oid ≠ b.oid →
      (heapTupleCmp a b).isSome = true ∧
      (heapTupleCmp a b = some Ordering.lt ∨ heapTupleCmp a b = some Ordering.gt)) ∧
    (∀ s : OrderBook, Reachable s →
      (s.bids.map (fun e => e.oid)).Nodup ∧ (s.asks.map (fun e => e.oid)).Nodup) ∧
    (∀ (s : OrderBook) (bids2 asks2 : List Entry) (em sd : String) (p q : Int),
      Reachable s → List.Perm s.bids bids2 → List.Perm s.asks asks2 →
      ((process_order (OrderBook.mk s.orders s.trades bids2 asks2 s.nextId s.now)
          em sd p q).1).orders = ((process_order s em sd p q).1).orders ∧
      ((process_order (OrderBook.mk s.orders s.trades bids2 asks2 s.nextId s.now)
          em sd p q).1).trades = ((process_order s em sd p q).1).trades ∧
      List.Perm ((process_order (OrderBook.mk s.orders s.trades bids2 asks2
          s.nextId s.now) em sd p q).1).bids
        ((process_order s em sd p q).1).bids ∧
      List.Perm ((process_order (OrderBook.mk s.orders s.trades bids2 asks2
          s.nextId s.now) em sd p q).1).asks
        ((process_order s em sd p q).1).asks ∧
      (process_order (OrderBook.mk s.orders s.trades bids2 asks2 s.nextId s.now)
          em sd p q).2 = (process_order s em sd p q).2 ∧
      get_book (process_order (OrderBook.mk s.orders s.trades bids2 asks2
          s.nextId s.now) em sd p q).1
        = get_book (process_order s em sd p q).1) := by
  refine ⟨heapTupleCmp_total, ?_, ?_⟩
  · intro s hs
    have hInv := inv_reachable hs
    exact ⟨hInv.bidsN, hInv.asksN⟩
  · intro s bids2 asks2 em sd p q hs hb ha
    have hInv := inv_reachable hs
    by_cases hsd : sd = "buy"
    · subst hsd
      rw [process_order_buy_def, process_order_buy_def]
      dsimp only
      rw [show asks2.length = s.asks.length from ha.length_eq.symm]
      obtain ⟨e1, e2, e3, e4⟩ := matchLoop_perm true s.nextId p (s.asks.length + 1)
        (s.orders ++ [(⟨s.nextId, em, "buy", p, q, q, s.now⟩ : Order)]) s.trades
        asks2 s.asks q ha.symm ((ha.map _).nodup hInv.asksN)
      refine ⟨e1, e2, ?_, e3, rfl, ?_⟩
      · rw [e4]
        by_cases h0 : 0 < (matchLoop true s.nextId p (s.asks.length + 1)
            (s.orders ++ [(⟨s.nextId, em, "buy", p, q, q, s.now⟩ : Order)])
            s.trades s.asks q).2.2.2
        · rw [if_pos h0, if_pos h0]
          exact hb.symm.cons _
        · rw [if_neg h0, if_neg h0]
          exact hb.symm
      · unfold get_book
        dsimp only
        rw [e1, e2, e4]
        congr 1
        · by_cases h0 : 0 < (matchLoop true s.nextId p (s.asks.length + 1)
              (s.orders ++ [(⟨s.nextId, em, "buy", p, q, q, s.now⟩ : Order)])
              s.trades s.asks q).2.2.2
          · rw [if_pos h0, if_pos h0]
            exact get_levels_perm _ (hb.symm.cons _) true
          · rw [if_neg h0, if_neg h0]
            exact get_levels_perm _ hb.symm true
        · congr 1
          exact get_levels_perm _ e3 false
    · rw [process_order_sell_def _ hsd, process_order_sell_def _ hsd]
      dsimp only
      rw [show bids2.length = s.bids.length from hb.length_eq.symm]
      obtain ⟨e1, e2, e3, e4⟩ := matchLoop_perm false s.nextId (-p) (s.bids.length + 1)
        (s.orders ++ [(⟨s.nextId, em, sd, p, q, q, s.now⟩ : Order)]) s.trades
        bids2 s.bids q hb.symm ((hb.map _).nodup hInv.bidsN)
      refine ⟨e1, e2, e3, ?_, rfl, ?_⟩
      · rw [e4]
        by_cases h0 : 0 < (matchLoop false s.nextId (-p) (s.bids.length + 1)
            (s.orders ++ [(⟨s.nextId, em, sd, p, q, q, s.now⟩ : Order)])
            s.trades s.bids q).2.2.2
        · rw [if_pos h0, if_pos h0]
          exact ha.symm.cons _
        · rw [if_neg h0, if_neg h0]
          exact ha.symm
      · unfold get_book
        dsimp only
        rw [e1, e2, e4]
        congr 1
        · exact get_levels_perm _ e3 true
        · congr 1
          by_cases h0 : 0 < (matchLoop false s.nextId (-p) (s.bids.length + 1)
              (s.orders ++ [(⟨s.nextId, em, sd, p, q, q, s.now⟩ : Order)])
              s.trades s.bids q).2.2.2
          · rw [if_pos h0, if_pos h0]
            exact get_levels_perm _ (ha.symm.cons _) false
          · rw [if_neg h0, if_neg h0]
            exact get_levels_perm _ ha.symm false

theorem c10_witness :
    ((heapTupleCmp ⟨40, 0, 0⟩ ⟨50, 1, 1⟩).isSome = true ∧
      (heapTupleCmp ⟨40, 0, 0⟩ ⟨50, 1, 1⟩ = some Ordering.lt ∨
        heapTupleCmp ⟨40, 0, 0⟩ ⟨50, 1, 1⟩ = some Ordering.gt)) ∧
    ((demo2.bids.map (fun e => e.oid)).Nodup ∧
      (demo2.asks.map (fun e => e.oid)).Nodup) ∧
    (((process_order (OrderBook.mk demo2.orders demo2.trades []
        [⟨40, 0, 0⟩, ⟨50, 1, 1⟩] demo2.nextId demo2.now) "carol" "buy" 60 12).1).orders
        = ((process_order demo2 "carol" "buy" 60 12).1).orders ∧
      ((process_order (OrderBook.mk demo2.orders demo2.trades []
        [⟨40, 0, 0⟩, ⟨50, 1, 1⟩] demo2.nextId demo2.now) "carol" "buy" 60 12).1).trades
        = ((process_order demo2 "carol" "buy" 60 12).1).trades ∧
      List.Perm ((process_order (OrderBook.mk demo2.orders demo2.trades []
        [⟨40, 0, 0⟩, ⟨50, 1, 1⟩] demo2.nextId demo2.now) "carol" "buy" 60 12).1).bids
        ((process_order demo2 "carol" "buy" 60 12).1).bids ∧
      List.Perm ((process_order (OrderBook.mk demo2.orders demo2.trades []
        [⟨40, 0, 0⟩, ⟨50, 1, 1⟩] demo2.nextId demo2.now) "carol" "buy" 60 12).1).asks
        ((process_order demo2 "carol" "buy" 60 12).1).asks ∧
      (process_order (OrderBook.mk demo2.orders demo2.trades []
        [⟨40, 0, 0⟩, ⟨50, 1, 1⟩] demo2.nextId demo2.now) "carol" "buy" 60 12).2
        = (process_order demo2 "carol" "buy" 60 12).2 ∧
      get_book (process_order (OrderBook.mk demo2.orders demo2.trades []
        [⟨40, 0, 0⟩, ⟨50, 1, 1⟩] demo2.nextId demo2.now) "carol" "buy" 60 12).1
        = get_book (process_order demo2 "carol" "buy" 60 12).1) :=
  ⟨c10_determinism.1 ⟨40, 0, 0⟩ ⟨50, 1, 1⟩ (by decide),
   c10_determinism.2.1 demo2 demo2_reachable,
   c10_determinism.2.2 demo2 [] [⟨40, 0, 0⟩, ⟨50, 1, 1⟩] "carol" "buy" 60 12
     demo2_reachable (by decide) (by decide)⟩

/-- Fuel sufficiency: as long as the taker is not referenced by the heap
(true at every call site — the incoming order is pushed only after the
loop), any fuel of at least `h.length + 1` produces the same result, i.e.
the fueled loop has already run to completion: every iteration except the
last pops an entry, and an iteration that leaves the matched entry in place
exhausts `remaining_qty`, upon which the loop's guard fails. -/
theorem matchLoop_fuel (tb : Bool) (taker : Nat) (lim : Int) :
    ∀ (n : Nat) (os : List Order) (tr : List Trade) (h : List Entry) (rq : Int),
      taker ∉ h.map (fun e => e.oid) → h.length + 1 ≤ n →
      matchLoop tb taker lim (n + 1) os tr h rq
        = matchLoop tb taker lim n os tr h rq := by
  intro n
  induction n with
  | zero =>
    intro os tr h rq htk hn
    exact absurd hn (by omega)
  | succ k ih =>
    intro os tr h rq htk hn
    cases hh : heapMin h with
    | none => rw [matchLoop_succ_none hh, matchLoop_succ_none hh]
    | some m =>
      have hm_mem := heapMin_mem hh
      have hpop_len : (popMin h).length + 1 ≤ k := by
        rw [popMin_of_heapMin hh]
        have h1 := List.length_erase_of_mem hm_mem
        have h2 : 0 < h.length := List.length_pos_of_mem hm_mem
        omega
      have hpop_tk : taker ∉ (popMin h).map (fun e => e.oid) := by
        rw [popMin_of_heapMin hh]
        intro hx
        exact htk (((List.erase_sublist m h).map _).subset hx)
      by_cases hg : m.pkey ≤ lim ∧ 0 < rq
      · by_cases ht : (getOrder os m.oid).remaining ≤ 0
        · rw [matchLoop_succ_tomb hh hg ht, matchLoop_succ_tomb hh hg ht]
          exact ih os tr (popMin h) rq hpop_tk hpop_len
        · rw [matchLoop_succ_trade hh hg ht, matchLoop_succ_trade hh hg ht]
          have htkm : taker ≠ m.oid := fun he => htk (he ▸ List.mem_map_of_mem _ hm_mem)
          have homx : ∃ om, findOrder os m.oid = some om := by
            cases hfo : findOrder os m.oid with
            | none =>
              exfalso
              apply ht
              unfold getOrder
              rw [hfo]
              exact le_refl _
            | some om => exact ⟨om, rfl⟩
          obtain ⟨om, hom⟩ := homx
          have hgo : getOrder os m.oid = om := by simp [getOrder, hom]
          simp only [hgo]
          have hrem₁ : (getOrder (if tb then record_trade os tr taker m.oid
                (if tb then m.pkey else -m.pkey) (min rq om.remaining)
              else record_trade os tr m.oid taker (if tb then m.pkey else -m.pkey)
                (min rq om.remaining)).1 m.oid).remaining
              = om.remaining - min rq om.remaining := by
            cases tb
            · simp only [Bool.false_eq_true, if_false]
              have hf := findOrder_record_trade_fst (fun he => htkm he.symm) hom tr
                (-m.pkey) (min rq om.remaining)
              simp [getOrder, hf]
            · simp only [if_true]
              have hf := findOrder_record_trade_snd htkm hom tr m.pkey
                (min rq om.remaining)
              simp [getOrder, hf]
          by_cases hz : om.remaining - min rq om.remaining = 0
          · simp only [hrem₁, if_pos hz]
            exact ih _ _ (popMin h) _ hpop_tk hpop_len
          · simp only [hrem₁, if_neg hz]
            have hpos : 0 < om.remaining := by rw [hgo] at ht; omega
            have hrq0 : rq - min rq om.remaining ≤ 0 := by
              rcases min_choice rq om.remaining with hc | hc
              · omega
              · omega
            rw [matchLoop_nonpos_rq hrq0, matchLoop_nonpos_rq hrq0]
      · rw [matchLoop_succ_exit hh hg, matchLoop_succ_exit hh hg]

-- Validation of the embedding: the specification's worked example scenarios 1, 2, 4, 5.
example :
    get_book (process_order init0 "a" "buy" 60 10).1 = ([(60, 10)], [], none) := by decide

example :
    get_book (process_order (process_order init0 "a" "buy" 60 10).1 "b" "sell" 55 5).1
      = ([(60, 5)], [], some 60) := by decide

example :
    (process_order (process_order init0 "a" "buy" 60 10).1 "b" "sell" 55 5).1.trades
      = [⟨"a", "b", 60, 5⟩] := by decide

example :
    get_book (process_order (process_order (process_order
        (tick init0 0) "a" "buy" 60 10).1 "b" "buy" 60 5).1 "c" "sell" 60 12).1
      = ([(60, 3)], [], some 60) := by decide

example :
    get_book (process_order init0 "a" "sell" 70 3).1 = ([], [(70, 3)], none) := by decide

end BettingApp
